import Mathlib

/-!
Shallow embedding of the bitempura in-memory bitemporal key-value store
(`memory/db.go` together with the `VersionedKV` record and its `Validate`
method), and proofs about the spec's claims over it.

Modelling conventions:
* Go `time.Time` is a linearly ordered set of instants; we model instants as
  `Int`.  The Go zero value `time.Time{}` (tested by `IsZero`) is modelled as
  `0`; Go can represent instants before the zero value (dates before year 1),
  which here are the negative integers.
* Go `*time.Time` (nil = open interval end) is `Option Int`.
* Go `Value` is `interface{}` (any payload, possibly nil); we model it as
  `Option Int`, `none` standing for Go `nil`.
* Go errors are distinguished by their construction site; each distinct
  error construction in the modelled code gets one constructor of `Err`.
* The record map `map[string][]*bt.VersionedKV` is an association list.
  Entries are only ever created by `append`, so a key is present exactly
  when at least one record was stored for it; lookups and in-place entry
  updates are modelled by `List.lookup` and `setKey`.
* In-place pointer mutation (`overlappingV.v.TxTimeEnd = &now`) is modelled
  by rebuilding the key's record list; the write loop of `update` is fused
  into `closeLoop`/`overhangLoop` which walk the list in the same order and
  perform the same checks against the same intermediate record sets as the
  Go loop over `findOverlappingValidTimeVersions` results.
-/

namespace Bitempura

-- Instants: Go `time.Time` under its linear order is modelled directly as `Int`;
-- `0` is the Go zero value `time.Time\x7b\x7d`.

/-- Payloads (Go `Value = interface\x7b\x7d`); `none` is Go `nil`. -/
abbrev Val := Option Int

/-- VersionedKV is a transaction-time and valid-time versioned key-value
(bitempura `VersionedKV`).  Starts are inclusive; ends are exclusive, `none`
meaning open. -/
structure VersionedKV where
  Key : String
  Value : Val
  TxTimeStart : Int
  TxTimeEnd : Option Int
  ValidTimeStart : Int
  ValidTimeEnd : Option Int
deriving DecidableEq, Repr

/-- Errors, one constructor per distinct error construction site in the
modelled code.  `notFound` is the sentinel `bt.ErrNotFound`. -/
inductive Err where
  /-- `bt.ErrNotFound` -/
  | notFound
  /-- handleWriteOpts: "valid time start must be before end" -/
  | vtStartNotBeforeEnd
  /-- handleWriteOpts: "valid time start cannot be in the future" -/
  | vtStartInFuture
  /-- handleWriteOpts: "valid time end cannot be in the future" -/
  | vtEndInFuture
  /-- Validate: "key is required" -/
  | keyRequired
  /-- Validate: "transaction time start cannot be zero value" -/
  | txStartZero
  /-- Validate: "transaction time end cannot be zero value" -/
  | txEndZero
  /-- Validate: "transaction time start must be before end" -/
  | txOrder
  /-- Validate: "valid time start cannot be zero value" -/
  | vtStartZero
  /-- Validate: "valid time end cannot be zero value" -/
  | vtEndZero
  /-- Validate: "valid time start must be before end" -/
  | vtOrder
  /-- assertNoOverlap: "versioned values for the same key overlap tx time and valid time" -/
  | overlap
  /-- findVersionByTime: "multiple versions matched find for ..." -/
  | multipleMatches
deriving DecidableEq, Repr

/-- Validate a versioned key-value (bitempura `(*VersionedKV).Validate`).
`IsZero` on an instant is modelled as equality with `0`. -/
def Validate (d : VersionedKV) : Except Err Unit :=
  if d.Key = "" then .error .keyRequired
  else if d.TxTimeStart = 0 then .error .txStartZero
  else
    match d.TxTimeEnd with
    | some te =>
      if te = 0 then .error .txEndZero
      else if ¬ d.TxTimeStart < te then .error .txOrder
      else validVT d
    | none => validVT d
where
  /-- Valid-time half of `Validate`. -/
  validVT (d : VersionedKV) : Except Err Unit :=
    if d.ValidTimeStart = 0 then .error .vtStartZero
    else
      match d.ValidTimeEnd with
      | some ve =>
        if ve = 0 then .error .vtEndZero
        else if ¬ d.ValidTimeStart < ve then .error .vtOrder
        else .ok ()
      | none => .ok ()

/-- Half-open time range; `start` is inclusive, the end is exclusive and
`none` means open (memory/db.go `timeRange`; the end field is named `stop`
here because `end` is a Lean keyword). -/
structure timeRange where
  start : Int
  stop : Option Int
deriving DecidableEq, Repr

/-- Membership of an instant in a half-open range (memory/db.go `isInRange`):
`(t.Equal(r.start) || t.After(r.start)) && (r.end == nil || t.Before(*r.end))`. -/
def isInRange (t : Int) (r : timeRange) : Bool :=
  decide (r.start ≤ t) && (match r.stop with
    | none => true
    | some e => decide (t < e))

/-- Overlap of two half-open ranges and the parts of `y` outside `x`
(memory/db.go `hasOverlap`).  Faithful to the source, including producing
overhangs only when the ranges overlap. -/
def hasOverlap (x y : timeRange) : Bool × List timeRange :=
  let ov :=
    (match y.stop with | none => true | some ye => decide (x.start < ye)) &&
    (match x.stop with | none => true | some xe => decide (y.start < xe))
  if ov then
    let o1 : List timeRange :=
      if y.start < x.start then [⟨y.start, some x.start⟩] else []
    let o2 : List timeRange :=
      match x.stop with
      | none => []
      | some xe =>
        if (match y.stop with | none => true | some ye => decide (xe < ye)) then
          [⟨xe, y.stop⟩]
        else []
    (true, o1 ++ o2)
  else (false, [])

/-- Transaction-time range of a record. -/
def ttRange (v : VersionedKV) : timeRange := ⟨v.TxTimeStart, v.TxTimeEnd⟩

/-- Valid-time range of a record. -/
def vtRange (v : VersionedKV) : timeRange := ⟨v.ValidTimeStart, v.ValidTimeEnd⟩

/-- The conjunction tested by `assertNoOverlap` for one existing record:
the candidate overlaps it on the transaction-time axis and on the valid-time
axis simultaneously. -/
def bothOverlaps (c x : VersionedKV) : Bool :=
  (hasOverlap (ttRange c) (ttRange x)).1 && (hasOverlap (vtRange c) (vtRange x)).1

/-- Guard against ambiguous bitemporal overlap (memory/db.go `assertNoOverlap`). -/
def assertNoOverlap (candidate : VersionedKV) (xs : List VersionedKV) : Except Err Unit :=
  if xs.any (fun x => bothOverlaps candidate x) then .error .overlap else .ok ()

/-- Does a record contain the query point `(validTime, txTime)`?  This is the
condition tested inside `findVersionByTime`. -/
def matchesAt (validTime txTime : Int) (v : VersionedKV) : Bool :=
  isInRange validTime (vtRange v) && isInRange txTime (ttRange v)

/-- Loop of `findVersionByTime`, carrying the `out` variable. -/
def findLoop (validTime txTime : Int) :
    List VersionedKV → Option VersionedKV → Except Err VersionedKV
  | [], none => .error .notFound
  | [], some out => .ok out
  | v :: vs, acc =>
    if matchesAt validTime txTime v then
      match acc with
      | some _ => .error .multipleMatches
      | none => findLoop validTime txTime vs (some v)
    else findLoop validTime txTime vs acc

/-- Point resolver (memory/db.go `findVersionByTime`): no match is
`ErrNotFound`, more than one possible match is an error. -/
def findVersionByTime (vs : List VersionedKV) (validTime txTime : Int) :
    Except Err VersionedKV :=
  findLoop validTime txTime vs none

/-- Selection predicate of `findOverlappingValidTimeVersions`: the record's
transaction-time range contains `txTime` and its valid-time range overlaps
the write's valid-time window. -/
def writeSelects (validTimeStart : Int) (validTimeEnd : Option Int) (txTime : Int)
    (v : VersionedKV) : Bool :=
  isInRange txTime (ttRange v) && (hasOverlap ⟨validTimeStart, validTimeEnd⟩ (vtRange v)).1

/-- Record paired with its overhangs (memory/db.go `overlappingVersion`). -/
structure overlappingVersion where
  v : VersionedKV
  overhangs : List timeRange
deriving DecidableEq, Repr

/-- Find versions overlapping the write window in the current transaction-time
layer (memory/db.go `findOverlappingValidTimeVersions`; its error result is
always nil in the source, so it is dropped here). -/
def findOverlappingValidTimeVersions (vs : List VersionedKV) (validTimeStart : Int)
    (validTimeEnd : Option Int) (txTime : Int) : List overlappingVersion :=
  match vs with
  | [] => []
  | v :: rest =>
    if writeSelects validTimeStart validTimeEnd txTime v then
      ⟨v, (hasOverlap ⟨validTimeStart, validTimeEnd⟩ (vtRange v)).2⟩ ::
        findOverlappingValidTimeVersions rest validTimeStart validTimeEnd txTime
    else findOverlappingValidTimeVersions rest validTimeStart validTimeEnd txTime

/-- Result of `bt.ApplyWriteOpts`: the two optional write times
(`WithValidTime` / `WithEndValidTime`), `none` when the option is absent. -/
structure WriteOptions where
  ValidTime : Option Int
  EndValidTime : Option Int
deriving DecidableEq, Repr

/-- Effective write configuration (memory/db.go `writeConfig`). -/
structure writeConfig where
  validTime : Int
  endValidTime : Option Int
deriving DecidableEq, Repr

/-- Default and validate the write option times (memory/db.go
`handleWriteOpts`).  `now` is the value of `db.clock.Now()`.  The source
guards its first and third checks with `config.endValidTime != nil`; here the
nil test is hoisted into one `match`, preserving the check order exactly
(start-before-end, then future start, then future end). -/
def handleWriteOpts (options : WriteOptions) (now : Int) : Except Err writeConfig :=
  let validTime := options.ValidTime.getD now
  match options.EndValidTime with
  | some e =>
    if ¬ validTime < e then .error .vtStartNotBeforeEnd
    else if validTime > now then .error .vtStartInFuture
    else if e > now then .error .vtEndInFuture
    else .ok { validTime := validTime, endValidTime := some e }
  | none =>
    if validTime > now then .error .vtStartInFuture
    else .ok { validTime := validTime, endValidTime := none }

/-- Result of `bt.ApplyReadOpts`: the two optional read times. -/
structure ReadOptions where
  ValidTime : Option Int
  TxTime : Option Int
deriving DecidableEq, Repr

/-- Default the read option times (memory/db.go `handleReadOpts`):
`(validTime, txTime)`, each defaulting to `now`. -/
def handleReadOpts (options : ReadOptions) (now : Int) : Int × Int :=
  (options.ValidTime.getD now, options.TxTime.getD now)

/-- The store's record map `map[string][]*bt.VersionedKV`, as an association
list.  Entries are created only by appends, so each key present holds the
records stored for it. -/
abbrev Store := List (String × List VersionedKV)

/-- Write the entry for a key (`db.vKVs[key] = ...`): replace the first entry
with that key, or append a fresh entry. -/
def setKey (s : Store) (key : String) (vs : List VersionedKV) : Store :=
  match s with
  | [] => [(key, vs)]
  | (k, old) :: rest =>
    if k = key then (key, vs) :: rest else (k, old) :: setKey rest key vs

/-- Record emitted for one overhang of an overlapped record (the `overhangV`
literal in memory/db.go `update`). -/
def commitOverhang (key : String) (now : Int) (value : Val) (overhang : timeRange) :
    VersionedKV :=
  { Key := key
    Value := value
    TxTimeStart := now
    TxTimeEnd := none
    ValidTimeStart := overhang.start
    ValidTimeEnd := overhang.stop }

/-- Record emitted by Step 6 of a `Set` (the `newV` literal in memory/db.go
`update`). -/
def mkNewV (key : String) (value : Val) (cfg : writeConfig) (now : Int) : VersionedKV :=
  { Key := key
    Value := value
    TxTimeStart := now
    TxTimeEnd := none
    ValidTimeStart := cfg.validTime
    ValidTimeEnd := cfg.endValidTime }

/-- Inner loop of `update`: for each overhang of one overlapped record,
validate the overhang record, assert no overlap against all records currently
stored for the key (`fixed ++ appended`), and append it.  Returns the final
appended tail, also on error (the Go code has already mutated the map when an
error is returned mid-loop). -/
def overhangLoop (key : String) (now : Int) (value : Val) :
    List timeRange → List VersionedKV → List VersionedKV →
    Except Err Unit × List VersionedKV
  | [], _, appended => (.ok (), appended)
  | h :: rest, fixed, appended =>
    let overhangV := commitOverhang key now value h
    match Validate overhangV with
    | .error e => (.error e, appended)
    | .ok _ =>
      match assertNoOverlap overhangV (fixed ++ appended) with
      | .error e => (.error e, appended)
      | .ok _ => overhangLoop key now value rest fixed (appended ++ [overhangV])

/-- Outer loop of `update` over the key's records, fusing the iteration over
`findOverlappingValidTimeVersions` with the in-place mutation of the map
entry.  `done` is the already-processed prefix (overlapped records closed),
`pending` the untouched suffix, `appended` the overhang records appended so
far (slice appends go to the end of the entry).  Returns the final entry
value, also on error. -/
def closeLoop (key : String) (now : Int) (cfg : writeConfig) :
    List VersionedKV → List VersionedKV → List VersionedKV →
    Except Err Unit × List VersionedKV
  | done, [], appended => (.ok (), done ++ appended)
  | done, v :: pending, appended =>
    if writeSelects cfg.validTime cfg.endValidTime now v then
      let closed := { v with TxTimeEnd := some now }
      let ohs := (hasOverlap ⟨cfg.validTime, cfg.endValidTime⟩ (vtRange v)).2
      match overhangLoop key now v.Value ohs ((done ++ [closed]) ++ pending) appended with
      | (.error e, appended2) => (.error e, done ++ [closed] ++ pending ++ appended2)
      | (.ok _, appended2) => closeLoop key now cfg (done ++ [closed]) pending appended2
    else closeLoop key now cfg (done ++ [v]) pending appended

/-- Common logic of Set and Delete (memory/db.go `update`).  Returns the Go
error result together with the store contents after the call; on an error
raised mid-commit the store keeps the mutations already applied, exactly as
the in-place Go code does. -/
def update (s : Store) (key : String) (value : Val) (isDelete : Bool)
    (options : WriteOptions) (now : Int) : Except Err Unit × Store :=
  match handleWriteOpts options now with
  | .error e => (.error e, s)
  | .ok cfg =>
    match List.lookup key s with
    | some vs =>
      match closeLoop key now cfg [] vs [] with
      | (.error e, cur) => (.error e, setKey s key cur)
      | (.ok _, cur) =>
        if isDelete then (.ok (), setKey s key cur)
        else
          let newV := mkNewV key value cfg now
          match Validate newV with
          | .error e => (.error e, setKey s key cur)
          | .ok _ =>
            match assertNoOverlap newV cur with
            | .error e => (.error e, setKey s key cur)
            | .ok _ => (.ok (), setKey s key (cur ++ [newV]))
    | none =>
      if isDelete then (.ok (), s)
      else
        let newV := mkNewV key value cfg now
        match Validate newV with
        | .error e => (.error e, s)
        | .ok _ =>
          match assertNoOverlap newV [] with
          | .error e => (.error e, s)
          | .ok _ => (.ok (), setKey s key [newV])

/-- Set stores a value (memory/db.go `Set`). -/
def Set (s : Store) (key : String) (value : Val) (options : WriteOptions) (now : Int) :
    Except Err Unit × Store :=
  update s key value false options now

/-- Delete removes a value (memory/db.go `Delete`; the value passed to
`update` is Go `nil`). -/
def Delete (s : Store) (key : String) (options : WriteOptions) (now : Int) :
    Except Err Unit × Store :=
  update s key none true options now

/-- Get data by key at a resolved valid time and transaction time
(memory/db.go `Get` after `handleReadOpts`). -/
def Get (s : Store) (key : String) (validTime txTime : Int) : Except Err VersionedKV :=
  match List.lookup key s with
  | none => .error .notFound
  | some vs => findVersionByTime vs validTime txTime

/-- Get with unresolved read options at clock value `now`. -/
def GetWithOptions (s : Store) (key : String) (options : ReadOptions) (now : Int) :
    Except Err VersionedKV :=
  let config := handleReadOpts options now
  Get s key config.1 config.2

/-- The `less` closure of the `sort.Slice` call in memory/db.go `History`
(arguments deliberately flipped in the source to reverse the order), with its
Go operator precedence: the second valid-time disjunct
`out[j].ValidTimeEnd != nil && out[i].ValidTimeEnd == nil` is NOT guarded by
the transaction-time-end equality.  The source compares the `TxTimeEnd`
pointers with `==`; two nil pointers compare equal, and two non-nil pointers
compare equal only if they are the same allocation — which the value model
cannot observe, so value equality of the two optional instants is used. -/
def histLess (x y : VersionedKV) : Bool :=
  (match y.TxTimeEnd, x.TxTimeEnd with
   | some a, some b => decide (a < b)
   | _, _ => false)
  || (y.TxTimeEnd.isSome && x.TxTimeEnd.isNone)
  || ((y.TxTimeEnd == x.TxTimeEnd &&
        (match y.ValidTimeEnd, x.ValidTimeEnd with
         | some a, some b => decide (a < b)
         | _, _ => false))
      || (y.ValidTimeEnd.isSome && x.ValidTimeEnd.isNone))

/-- Insert a record into the reversed sorted prefix, sinking it left while
`less` holds against the previous element — the inner loop of the insertion
sort that Go `sort.Slice` (pdqsort) performs on slices of fewer than 12
elements. -/
def revInsert (less : VersionedKV → VersionedKV → Bool) (r : VersionedKV) :
    List VersionedKV → List VersionedKV
  | [] => [r]
  | p :: ps => if less r p then p :: revInsert less r ps else r :: p :: ps

/-- The `sort.Slice` call of `History`.  Go's `sort.Slice` is pdqsort, which
for the comparator at hand (not a strict weak order) has an
algorithm-dependent result; on fewer than 12 elements pdqsort is exactly
insertion sort, modelled here (left-to-right scan, each element sinking
left while `less` holds). -/
def sortSlice (less : VersionedKV → VersionedKV → Bool) (xs : List VersionedKV) :
    List VersionedKV :=
  (xs.foldl (fun acc x => revInsert less x acc) []).reverse

/-- History returns versions by descending end transaction time, descending
end valid time (memory/db.go `History`). -/
def History (s : Store) (key : String) : Except Err (List VersionedKV) :=
  match List.lookup key s with
  | none => .error .notFound
  | some vs => .ok (sortSlice histLess vs)

/-- Seeding loop of `NewDB`: validate each seed and assert it against the
records already held for its key, then append it. -/
def newDBLoop : List VersionedKV → Store → Except Err Store
  | [], s => .ok s
  | kv :: rest, s =>
    match Validate kv with
    | .error e => .error e
    | .ok _ =>
      match assertNoOverlap kv ((List.lookup kv.Key s).getD []) with
      | .error e => .error e
      | .ok _ =>
        newDBLoop rest (setKey s kv.Key (((List.lookup kv.Key s).getD []) ++ [kv]))

/-- Construct an in-memory DB, optionally seeded (memory/db.go `NewDB` with
`WithVersionedKVs`). -/
def NewDB (versionedKVs : List VersionedKV) : Except Err Store :=
  newDBLoop versionedKVs []

/-! ## Derived notions used by the statements and proofs -/

/-- Record after the close phase: closed (transaction-time end set to `now`)
if selected by the write, untouched otherwise. -/
def closeSel (cfg : writeConfig) (now : Int) (v : VersionedKV) : VersionedKV :=
  if writeSelects cfg.validTime cfg.endValidTime now v then { v with TxTimeEnd := some now }
  else v

/-- Overhang records emitted for one record by a successful write. -/
def ohRecs (key : String) (now : Int) (cfg : writeConfig) (v : VersionedKV) :
    List VersionedKV :=
  if writeSelects cfg.validTime cfg.endValidTime now v then
    ((hasOverlap ⟨cfg.validTime, cfg.endValidTime⟩ (vtRange v)).2).map
      (commitOverhang key now v.Value)
  else []

/-- Overhang records emitted for a record list by a successful write, in
processing order. -/
def ohRecsAll (key : String) (now : Int) (cfg : writeConfig) :
    List VersionedKV → List VersionedKV
  | [] => []
  | v :: rest => ohRecs key now cfg v ++ ohRecsAll key now cfg rest

/-- P1-style pairwise invariant for one key's record list: no two distinct
stored records overlap on both time axes simultaneously. -/
def NoOverlapList (vs : List VersionedKV) : Prop :=
  vs.Pairwise (fun a b => bothOverlaps a b = false)

/-- Well-formedness of a stored record's intervals: the transaction-time
interval never ends before it starts, and the valid-time interval is strictly
ordered when closed. -/
def WF (v : VersionedKV) : Prop :=
  (∀ te, v.TxTimeEnd = some te → v.TxTimeStart ≤ te) ∧
  (∀ ve, v.ValidTimeEnd = some ve → v.ValidTimeStart < ve)

/-- Per-entry store invariant: the key is non-empty, the records carry the
entry's key, are pairwise non-overlapping bitemporally, and have well-formed
intervals. -/
def GoodList (key : String) (vs : List VersionedKV) : Prop :=
  NoOverlapList vs ∧ ∀ v ∈ vs, WF v ∧ v.Key = key

/-- Store invariant. -/
def InvStore (s : Store) : Prop :=
  ∀ k vs, (k, vs) ∈ s → k ≠ "" ∧ GoodList k vs

/-- Store states reachable by constructing the DB from seeds that pass
validation and then performing any sequence of successful Set and Delete
operations. -/
inductive Reachable : Store → Prop where
  | seeded (seeds : List VersionedKV) (s : Store) :
      NewDB seeds = .ok s → Reachable s
  | set (s : Store) (key : String) (value : Val) (options : WriteOptions) (now : Int)
      (s2 : Store) : Reachable s → Set s key value options now = (.ok (), s2) →
      Reachable s2
  | del (s : Store) (key : String) (options : WriteOptions) (now : Int)
      (s2 : Store) : Reachable s → Delete s key options now = (.ok (), s2) →
      Reachable s2

/-- Record contents ignoring the transaction-time end (the one field a write
may mutate on an existing record). -/
def stripTxEnd (v : VersionedKV) : String × Val × Int × Int × Option Int :=
  (v.Key, v.Value, v.TxTimeStart, v.ValidTimeStart, v.ValidTimeEnd)

deriving instance DecidableEq for Except

/-! ### Concrete keys, records and stores used in witnesses and counterexamples -/

/-- Test key. -/
def kA : String := "a"

/-- Record with value 10 and open bitemporal extent from instant 1. -/
def recA : VersionedKV := ⟨kA, some 10, 1, none, 1, none⟩

/-- Store seeded with `recA` alone. -/
def dbA : Store := [(kA, [recA])]

/-- Store after `Set kA 20` on `dbA` at instant 5. -/
def dbA2 : Store := (Set dbA kA (some 20) ⟨none, none⟩ 5).2

/-- Seed whose valid time `[-10, 10)` spans the Go zero instant. -/
def recNeg : VersionedKV := ⟨kA, some 0, 1, none, -10, some 10⟩

/-- Store seeded with `recNeg` alone. -/
def dbNeg : Store := [(kA, [recNeg])]

/-- Closed record with transaction time `[1, 20)` and valid time `[1, 5)`. -/
def histA : VersionedKV := ⟨kA, some 1, 1, some 20, 1, some 5⟩

/-- Closed record with transaction time `[1, 10)` and open valid time from 5. -/
def histB : VersionedKV := ⟨kA, some 2, 1, some 10, 5, none⟩

/-- Store seeded with `histA` then `histB`. -/
def dbHist : Store := [(kA, [histA, histB])]

/-- Store holding `histA` alone. -/
def dbSingle : Store := [(kA, [histA])]

/-- Store after one `Set kA 1` on the empty store at instant 1. -/
def dbTwin1 : Store := (Set ([] : Store) kA (some 1) ⟨none, none⟩ 1).2

/-- Store after a second `Set kA 2` at the same instant 1. -/
def dbTwin2 : Store := (Set dbTwin1 kA (some 2) ⟨none, none⟩ 1).2

/-- The record `dbTwin2` holds with an empty transaction-time interval. -/
def twinClosed : VersionedKV := ⟨kA, some 1, 1, some 1, 1, none⟩

/-- Descending order on optional end instants with an open end treated as
later than any concrete instant (the order the spec claims for `History`). -/
def ttGE (x y : Option Int) : Bool :=
  match x, y with
  | none, _ => true
  | some _, none => false
  | some a, some b => decide (b ≤ a)

/-- Modelled from the spec (section 4.5 wording, for comparison with the
code's comparator): records sorted by transaction-time end descending, ties
broken by valid-time end descending, open ends latest. -/
def claimedHistOrder (l : List VersionedKV) : Prop :=
  l.Pairwise (fun a b => ttGE a.TxTimeEnd b.TxTimeEnd = true ∧
    (a.TxTimeEnd = b.TxTimeEnd → ttGE a.ValidTimeEnd b.ValidTimeEnd = true))

/-! ## Interval lemmas -/

theorem isInRange_iff {t : Int} {r : timeRange} :
    isInRange t r = true ↔ r.start ≤ t ∧ ∀ e, r.stop = some e → t < e := by
  cases r with
  | mk start stop => cases stop <;> simp [isInRange]

theorem hasOverlap_fst_iff {x y : timeRange} :
    (hasOverlap x y).1 = true ↔
      (∀ ye, y.stop = some ye → x.start < ye) ∧ (∀ xe, x.stop = some xe → y.start < xe) := by
  cases x with
  | mk xs xe =>
    cases y with
    | mk ys ye =>
      cases xe <;> cases ye <;> simp [hasOverlap] <;> split <;> simp_all

theorem hasOverlap_fst_symm (x y : timeRange) :
    (hasOverlap x y).1 = (hasOverlap y x).1 := by
  by_cases h : (hasOverlap x y).1 = true
  · have h2 := (hasOverlap_fst_iff).mp h
    exact (h.trans ((hasOverlap_fst_iff (x := y) (y := x)).mpr ⟨h2.2, h2.1⟩).symm)
  · by_cases h3 : (hasOverlap y x).1 = true
    · have h4 := (hasOverlap_fst_iff).mp h3
      exact absurd ((hasOverlap_fst_iff).mpr ⟨h4.2, h4.1⟩) h
    · simp only [Bool.not_eq_true] at h h3; rw [h, h3]

theorem bothOverlaps_symm (a b : VersionedKV) :
    bothOverlaps a b = bothOverlaps b a := by
  unfold bothOverlaps
  rw [hasOverlap_fst_symm (ttRange a), hasOverlap_fst_symm (vtRange a)]

theorem point_in_both {t : Int} {x y : timeRange}
    (hx : isInRange t x = true) (hy : isInRange t y = true) :
    (hasOverlap x y).1 = true := by
  rw [isInRange_iff] at hx hy
  rw [hasOverlap_fst_iff]
  exact ⟨fun ye h => lt_of_le_of_lt hx.1 (hy.2 ye h),
         fun xe h => lt_of_le_of_lt hy.1 (hx.2 xe h)⟩

theorem matches_bothOverlaps {t tt : Int} {a b : VersionedKV}
    (ha : matchesAt t tt a = true) (hb : matchesAt t tt b = true) :
    bothOverlaps a b = true := by
  unfold matchesAt at ha hb
  simp only [Bool.and_eq_true] at ha hb
  unfold bothOverlaps
  simp only [Bool.and_eq_true]
  exact ⟨point_in_both ha.2 hb.2, point_in_both ha.1 hb.1⟩

theorem close_shrinks {now : Int} {x y : timeRange}
    (hsel : isInRange now x = true)
    (h : (hasOverlap ⟨x.start, some now⟩ y).1 = true) :
    (hasOverlap x y).1 = true := by
  rw [isInRange_iff] at hsel
  rw [hasOverlap_fst_iff] at h ⊢
  refine ⟨h.1, fun xe hxe => ?_⟩
  have h2 := h.2 now rfl
  exact lt_trans h2 (hsel.2 xe hxe)

/-- Closing a selected record only removes bitemporal overlaps. -/
theorem bothOverlaps_close_left {now : Int} {v b : VersionedKV}
    (hsel : isInRange now (ttRange v) = true)
    (h : bothOverlaps { v with TxTimeEnd := some now } b = true) :
    bothOverlaps v b = true := by
  unfold bothOverlaps at h ⊢
  simp only [Bool.and_eq_true] at h ⊢
  refine ⟨close_shrinks hsel ?_, h.2⟩
  exact h.1

theorem bothOverlaps_close_right {now : Int} {v a : VersionedKV}
    (hsel : isInRange now (ttRange v) = true)
    (h : bothOverlaps a { v with TxTimeEnd := some now } = true) :
    bothOverlaps a v = true := by
  rw [bothOverlaps_symm] at h ⊢
  exact bothOverlaps_close_left hsel h

/-- Overhang coverage: the overhangs of `y` against `x` cover exactly the
points of `y` outside `x`, whenever the two ranges overlap. -/
theorem overhang_mem_iff {t : Int} {x y : timeRange}
    (hov : (hasOverlap x y).1 = true) (ht : isInRange t x = false) :
    (isInRange t y = true ↔ ∃ h ∈ (hasOverlap x y).2, isInRange t h = true) := by
  obtain ⟨xs, xe⟩ := x
  obtain ⟨ys, ye⟩ := y
  rw [hasOverlap_fst_iff] at hov
  simp only at hov
  cases xe <;> cases ye <;> simp_all [hasOverlap, isInRange] <;> constructor
  · intro h2
    exact ⟨⟨ys, some xs⟩, ⟨by omega, rfl⟩, (by omega : ys ≤ t), decide_eq_true (by omega)⟩
  · rintro ⟨h, ⟨h1, rfl⟩, h3, h4⟩
    exact h3
  · intro h2
    exact ⟨⟨ys, some xs⟩, ⟨by omega, rfl⟩, (by omega : ys ≤ t), decide_eq_true (by omega)⟩
  · rintro ⟨h, ⟨h1, rfl⟩, h3, h4⟩
    have h5 : t < xs := of_decide_eq_true h4
    have h6 : ys ≤ t := h3
    exact ⟨h6, by omega⟩
  · rename_i xv
    intro h2
    by_cases hc : t < xs
    · exact ⟨⟨ys, some xs⟩, Or.inl ⟨by omega, rfl⟩, (by omega : ys ≤ t), decide_eq_true (by omega)⟩
    · have hv : xv ≤ t := ht (by omega)
      exact ⟨⟨xv, none⟩, Or.inr rfl, hv, rfl⟩
  · rename_i xv
    rintro ⟨h, hOr, h3, h4⟩
    rcases hOr with ⟨h1, rfl⟩ | rfl
    · exact h3
    · exact le_trans (le_of_lt hov) h3
  · rename_i xv yv
    intro h2
    by_cases hc : t < xs
    · exact ⟨⟨ys, some xs⟩, Or.inl ⟨by omega, rfl⟩, (by omega : ys ≤ t), decide_eq_true (by omega)⟩
    · have hv : xv ≤ t := ht (by omega)
      exact ⟨⟨xv, some yv⟩, Or.inr ⟨by omega, rfl⟩, hv, decide_eq_true (by omega)⟩
  · rename_i xv yv
    rintro ⟨h, hOr, h3, h4⟩
    rcases hOr with ⟨h1, rfl⟩ | ⟨h1, rfl⟩
    · have h5 : t < xs := of_decide_eq_true h4
      have h6 : ys ≤ t := h3
      exact ⟨h6, by omega⟩
    · have h5 : t < yv := of_decide_eq_true h4
      have h6 : xv ≤ t := h3
      exact ⟨by omega, h5⟩

/-! ## Validation, guard and resolver lemmas -/

theorem Validate_ok {d : VersionedKV} (h : Validate d = .ok ()) :
    d.Key ≠ "" ∧ d.TxTimeStart ≠ 0 ∧ d.ValidTimeStart ≠ 0 ∧
    (∀ te, d.TxTimeEnd = some te → d.TxTimeStart < te) ∧
    (∀ ve, d.ValidTimeEnd = some ve → d.ValidTimeStart < ve) := by
  obtain ⟨k, val, ts, te, vs, ve⟩ := d
  cases te <;> cases ve <;>
    simp only [Validate, Validate.validVT] at h <;>
    split_ifs at h <;> simp_all

theorem Validate_ok_WF {d : VersionedKV} (h : Validate d = .ok ()) : WF d := by
  obtain ⟨-, -, -, h4, h5⟩ := Validate_ok h
  exact ⟨fun te hte => le_of_lt (h4 te hte), h5⟩

theorem assertNoOverlap_ok_iff {c : VersionedKV} {xs : List VersionedKV} :
    assertNoOverlap c xs = .ok () ↔ ∀ x ∈ xs, bothOverlaps c x = false := by
  constructor
  · intro h x hx
    by_contra hb
    simp only [Bool.not_eq_false] at hb
    have hany : xs.any (fun x => bothOverlaps c x) = true := List.any_eq_true.mpr ⟨x, hx, hb⟩
    simp [assertNoOverlap, hany] at h
  · intro hall
    have hany : xs.any (fun x => bothOverlaps c x) = false := by
      simp only [List.any_eq_false]
      intro x hx
      simp [hall x hx]
    simp [assertNoOverlap, hany]

theorem assertNoOverlap_cases (c : VersionedKV) (xs : List VersionedKV) :
    assertNoOverlap c xs = .ok () ∨ assertNoOverlap c xs = .error .overlap := by
  unfold assertNoOverlap
  split <;> simp

theorem findLoop_none_noMatch {vt tt : Int} {vs : List VersionedKV}
    (h : ∀ r ∈ vs, matchesAt vt tt r = false) :
    findLoop vt tt vs none = .error .notFound := by
  induction vs with
  | nil => rfl
  | cons v rest ih =>
    have hv := h v (by simp)
    simp only [findLoop, hv, Bool.false_eq_true, if_false]
    exact ih (fun r hr => h r (by simp [hr]))

theorem findLoop_some_noMatch {vt tt : Int} {vs : List VersionedKV} {a : VersionedKV}
    (h : ∀ r ∈ vs, matchesAt vt tt r = false) :
    findLoop vt tt vs (some a) = .ok a := by
  induction vs with
  | nil => rfl
  | cons v rest ih =>
    have hv := h v (by simp)
    simp only [findLoop, hv, Bool.false_eq_true, if_false]
    exact ih (fun r hr => h r (by simp [hr]))

theorem findLoop_some_hasMatch {vt tt : Int} {vs : List VersionedKV} {a r : VersionedKV}
    (hr : r ∈ vs) (hm : matchesAt vt tt r = true) :
    findLoop vt tt vs (some a) = .error .multipleMatches := by
  induction vs with
  | nil => cases hr
  | cons v rest ih =>
    by_cases hv : matchesAt vt tt v = true
    · simp [findLoop, hv]
    · rcases List.mem_cons.mp hr with rfl | hr2
      · exact absurd hm hv
      · simp only [findLoop, hv, Bool.false_eq_true, if_false]
        exact ih hr2

theorem match_unique {l : List VersionedKV} (hP : NoOverlapList l) {vt tt : Int}
    {r r2 : VersionedKV} (hr : r ∈ l) (hm : matchesAt vt tt r = true)
    (hr2 : r2 ∈ l) (hm2 : matchesAt vt tt r2 = true) : r = r2 := by
  induction l with
  | nil => cases hr
  | cons v rest ih =>
    have hp := List.pairwise_cons.mp hP
    rcases List.mem_cons.mp hr with rfl | hres
    · rcases List.mem_cons.mp hr2 with rfl | hres2
      · rfl
      · exact absurd (matches_bothOverlaps hm hm2) (by simp [hp.1 r2 hres2])
    · rcases List.mem_cons.mp hr2 with rfl | hres2
      · exact absurd (matches_bothOverlaps hm2 hm) (by simp [hp.1 r hres])
      · exact ih hp.2 hres hres2

theorem find_unique {vs : List VersionedKV} (hP : NoOverlapList vs) {vt tt : Int}
    {r : VersionedKV} (hr : r ∈ vs) (hm : matchesAt vt tt r = true) :
    findVersionByTime vs vt tt = .ok r := by
  induction vs with
  | nil => cases hr
  | cons v rest ih =>
    have hp := List.pairwise_cons.mp hP
    rcases List.mem_cons.mp hr with rfl | hres
    · have hnone : ∀ r2 ∈ rest, matchesAt vt tt r2 = false := by
        intro r2 hr2
        by_contra hb
        simp only [Bool.not_eq_false] at hb
        exact absurd (matches_bothOverlaps hm hb) (by simp [hp.1 r2 hr2])
      simp only [findVersionByTime, findLoop, hm, if_true]
      exact findLoop_some_noMatch hnone
    · have hv : matchesAt vt tt v = false := by
        by_contra hb
        simp only [Bool.not_eq_false] at hb
        exact absurd (matches_bothOverlaps hb hm) (by simp [hp.1 r hres])
      simp only [findVersionByTime, findLoop, hv, Bool.false_eq_true, if_false]
      exact ih hp.2 hres

theorem findVersionByTime_char {vs : List VersionedKV} (hP : NoOverlapList vs) (vt tt : Int) :
    ((∀ r ∈ vs, matchesAt vt tt r = false) ∧ findVersionByTime vs vt tt = .error .notFound) ∨
    (∃ r, r ∈ vs ∧ matchesAt vt tt r = true ∧ findVersionByTime vs vt tt = .ok r) := by
  by_cases h : ∃ r ∈ vs, matchesAt vt tt r = true
  · obtain ⟨r, hr, hm⟩ := h
    exact Or.inr ⟨r, hr, hm, find_unique hP hr hm⟩
  · have h2 : ∀ r ∈ vs, matchesAt vt tt r = false := by
      intro r hr
      by_contra hb
      simp only [Bool.not_eq_false] at hb
      exact h ⟨r, hr, hb⟩
    exact Or.inl ⟨h2, findLoop_none_noMatch h2⟩

theorem find_of_filter_single {vs : List VersionedKV} {vt tt : Int} {r : VersionedKV}
    (h : vs.filter (fun v => matchesAt vt tt v) = [r]) :
    findVersionByTime vs vt tt = .ok r := by
  induction vs with
  | nil => simp at h
  | cons v rest ih =>
    by_cases hm : matchesAt vt tt v = true
    · rw [List.filter_cons_of_pos hm] at h
      have hv : v = r := (List.cons_eq_cons.mp h).1
      have hrest : rest.filter (fun v => matchesAt vt tt v) = [] := (List.cons_eq_cons.mp h).2
      have hnone : ∀ r2 ∈ rest, matchesAt vt tt r2 = false := by
        intro r2 hr2
        by_contra hb
        simp only [Bool.not_eq_false] at hb
        have : r2 ∈ rest.filter (fun v => matchesAt vt tt v) := List.mem_filter.mpr ⟨hr2, hb⟩
        simp [hrest] at this
      subst hv
      simp only [findVersionByTime, findLoop, hm, if_true]
      exact findLoop_some_noMatch hnone
    · rw [List.filter_cons_of_neg (by simp [hm])] at h
      simp only [findVersionByTime, findLoop, hm, Bool.false_eq_true, if_false]
      exact ih h

theorem find_of_filter_multi {vs : List VersionedKV} {vt tt : Int}
    (h : 2 ≤ (vs.filter (fun v => matchesAt vt tt v)).length) :
    findVersionByTime vs vt tt = .error .multipleMatches := by
  induction vs with
  | nil => simp at h
  | cons v rest ih =>
    by_cases hm : matchesAt vt tt v = true
    · rw [List.filter_cons_of_pos hm] at h
      rw [List.length_cons] at h
      have hpos : 0 < (rest.filter (matchesAt vt tt)).length := by omega
      obtain ⟨r2, hr2⟩ := List.exists_mem_of_length_pos hpos
      have hmem := List.mem_filter.mp hr2
      simp only [findVersionByTime, findLoop, hm, if_true]
      exact findLoop_some_hasMatch hmem.1 hmem.2
    · rw [List.filter_cons_of_neg (by simp [hm])] at h
      simp only [findVersionByTime, findLoop, hm, Bool.false_eq_true, if_false]
      exact ih h

/-! ## Store map lemmas -/

theorem lookup_setKey_self (s : Store) (key : String) (vs : List VersionedKV) :
    List.lookup key (setKey s key vs) = some vs := by
  induction s with
  | nil => simp [setKey, List.lookup_cons]
  | cons e rest ih =>
    obtain ⟨k, old⟩ := e
    by_cases h : k = key
    · subst h
      simp [setKey, List.lookup_cons]
    · simp only [setKey, h, if_false]
      rw [List.lookup_cons]
      simp only [beq_false_of_ne (Ne.symm h)]
      exact ih

theorem lookup_setKey_ne {k2 key : String} (h : k2 ≠ key) (s : Store)
    (vs : List VersionedKV) :
    List.lookup k2 (setKey s key vs) = List.lookup k2 s := by
  induction s with
  | nil => simp [setKey, List.lookup_cons, beq_false_of_ne h]
  | cons e rest ih =>
    obtain ⟨k, old⟩ := e
    by_cases hk : k = key
    · subst hk
      simp [setKey, List.lookup_cons, beq_false_of_ne h]
    · simp only [setKey, hk, if_false]
      by_cases h2 : k2 = k
      · subst h2
        simp [List.lookup_cons]
      · rw [List.lookup_cons, List.lookup_cons]
        simp only [beq_false_of_ne h2]
        exact ih

theorem mem_setKey {s : Store} {key : String} {vs : List VersionedKV} {e : String × List VersionedKV}
    (h : e ∈ setKey s key vs) : e = (key, vs) ∨ e ∈ s := by
  induction s with
  | nil =>
    simp [setKey] at h
    simp [h]
  | cons e2 rest ih =>
    obtain ⟨k, old⟩ := e2
    by_cases hk : k = key
    · subst hk
      simp only [setKey, if_pos rfl] at h
      rcases List.mem_cons.mp h with rfl | h2
      · exact Or.inl rfl
      · exact Or.inr (List.mem_cons.mpr (Or.inr h2))
    · simp only [setKey, hk, if_false] at h
      rcases List.mem_cons.mp h with rfl | h2
      · exact Or.inr (List.mem_cons.mpr (Or.inl rfl))
      · rcases ih h2 with h3 | h3
        · exact Or.inl h3
        · exact Or.inr (List.mem_cons.mpr (Or.inr h3))

theorem lookup_mem {s : Store} {k : String} {vs : List VersionedKV}
    (h : List.lookup k s = some vs) : (k, vs) ∈ s := by
  induction s with
  | nil => simp [List.lookup] at h
  | cons e rest ih =>
    obtain ⟨k2, old⟩ := e
    by_cases h2 : k = k2
    · subst h2
      rw [List.lookup_cons] at h
      simp only [beq_self_eq_true] at h
      cases h
      exact List.mem_cons_self _ _
    · rw [List.lookup_cons] at h
      simp only [beq_false_of_ne h2] at h
      exact List.mem_cons.mpr (Or.inr (ih h))

theorem InvStore_lookup_empty {s : Store} (hinv : InvStore s) :
    List.lookup ("" : String) s = none := by
  induction s with
  | nil => rfl
  | cons e rest ih =>
    obtain ⟨k, old⟩ := e
    have hk := (hinv k old (List.mem_cons_self _ _)).1
    rw [List.lookup_cons]
    simp only [beq_false_of_ne (Ne.symm hk)]
    exact ih (fun k2 vs2 h2 => hinv k2 vs2 (List.mem_cons.mpr (Or.inr h2)))

/-! ## Invariant preservation -/

theorem bothOverlaps_false_symm {a b : VersionedKV} (h : bothOverlaps a b = false) :
    bothOverlaps b a = false := by
  rw [bothOverlaps_symm]
  exact h

theorem NoOverlapList_append_one {l : List VersionedKV} {c : VersionedKV}
    (hP : NoOverlapList l) (hc : ∀ x ∈ l, bothOverlaps c x = false) :
    NoOverlapList (l ++ [c]) := by
  rw [NoOverlapList, List.pairwise_append]
  refine ⟨hP, List.pairwise_singleton _ _, fun a ha b hb => ?_⟩
  rw [List.mem_singleton] at hb
  subst hb
  exact bothOverlaps_false_symm (hc a ha)

theorem NoOverlapList_replace {l1 l2 : List VersionedKV} {v v2 : VersionedKV}
    (hP : NoOverlapList (l1 ++ v :: l2))
    (himp : ∀ a, bothOverlaps v2 a = true → bothOverlaps v a = true) :
    NoOverlapList (l1 ++ v2 :: l2) := by
  rw [NoOverlapList, List.pairwise_append] at hP ⊢
  obtain ⟨h1, h2, h3⟩ := hP
  rw [List.pairwise_cons] at h2 ⊢
  refine ⟨h1, ⟨fun b hb => ?_, h2.2⟩, fun a ha b hb => ?_⟩
  · by_contra hc
    simp only [Bool.not_eq_false] at hc
    exact absurd (himp b hc) (by simp [h2.1 b hb])
  · rcases List.mem_cons.mp hb with rfl | hb2
    · by_contra hc
      simp only [Bool.not_eq_false] at hc
      have h5 : bothOverlaps b a = true := by
        rw [bothOverlaps_symm] at hc
        exact hc
      have h7 : bothOverlaps a v = true := by
        rw [bothOverlaps_symm]
        exact himp a h5
      exact absurd h7 (by simp [h3 a ha v (List.mem_cons_self _ _)])
    · exact h3 a ha b (List.mem_cons.mpr (Or.inr hb2))

theorem GoodList_perm {key : String} {l l2 : List VersionedKV} (hp : l.Perm l2)
    (h : GoodList key l) : GoodList key l2 :=
  ⟨(hp.pairwise_iff (fun hab => bothOverlaps_false_symm hab)).mp h.1,
   fun v hv => h.2 v (hp.symm.subset hv)⟩

theorem writeSelects_inRange {s : Int} {e : Option Int} {tt : Int} {v : VersionedKV}
    (h : writeSelects s e tt v = true) : isInRange tt (ttRange v) = true := by
  simp only [writeSelects, Bool.and_eq_true] at h
  exact h.1

theorem writeSelects_overlap {s : Int} {e : Option Int} {tt : Int} {v : VersionedKV}
    (h : writeSelects s e tt v = true) :
    (hasOverlap ⟨s, e⟩ (vtRange v)).1 = true := by
  simp only [writeSelects, Bool.and_eq_true] at h
  exact h.2

theorem WF_close {v : VersionedKV} {now : Int} (hWF : WF v)
    (hsel : isInRange now (ttRange v) = true) : WF { v with TxTimeEnd := some now } := by
  rw [isInRange_iff] at hsel
  refine ⟨fun te hte => ?_, hWF.2⟩
  cases hte
  exact hsel.1

theorem overhangLoop_good {key : String} {now : Int} {value : Val}
    (ohs : List timeRange) (fixed : List VersionedKV) :
    ∀ (appended : List VersionedKV), GoodList key (fixed ++ appended) →
    ∀ {res appended2}, overhangLoop key now value ohs fixed appended = (res, appended2) →
    GoodList key (fixed ++ appended2) := by
  induction ohs with
  | nil =>
    intro appended hG res appended2 h
    simp only [overhangLoop, Prod.mk.injEq] at h
    obtain ⟨rfl, rfl⟩ := h
    exact hG
  | cons hd rest ih =>
    intro appended hG res appended2 h
    simp only [overhangLoop] at h
    cases hv : Validate (commitOverhang key now value hd) with
    | error e =>
      rw [hv] at h
      simp only [Prod.mk.injEq] at h
      obtain ⟨rfl, rfl⟩ := h
      exact hG
    | ok u =>
      rw [hv] at h
      cases ha : assertNoOverlap (commitOverhang key now value hd) (fixed ++ appended) with
      | error e =>
        rw [ha] at h
        simp only [Prod.mk.injEq] at h
        obtain ⟨rfl, rfl⟩ := h
        exact hG
      | ok u2 =>
        rw [ha] at h
        have hc := assertNoOverlap_ok_iff.mp ha
        have hG2 : GoodList key (fixed ++ (appended ++ [commitOverhang key now value hd])) := by
          constructor
          · rw [← List.append_assoc]
            exact NoOverlapList_append_one hG.1 hc
          · intro w hw
            rw [← List.append_assoc, List.mem_append] at hw
            rcases hw with h2 | h2
            · exact hG.2 w h2
            · rw [List.mem_singleton] at h2
              subst h2
              exact ⟨Validate_ok_WF hv, rfl⟩
        exact ih _ hG2 h

theorem closeLoop_good {key : String} {now : Int} {cfg : writeConfig}
    (pending : List VersionedKV) :
    ∀ (done appended : List VersionedKV), GoodList key (done ++ (pending ++ appended)) →
    ∀ {res L}, closeLoop key now cfg done pending appended = (res, L) →
    GoodList key L := by
  induction pending with
  | nil =>
    intro done appended hG res L h
    simp only [closeLoop, Prod.mk.injEq] at h
    obtain ⟨rfl, rfl⟩ := h
    simpa using hG
  | cons v pending ih =>
    intro done appended hG res L h
    by_cases hsel : writeSelects cfg.validTime cfg.endValidTime now v = true
    · have hsel2 : isInRange now (ttRange v) = true := writeSelects_inRange hsel
      have hmemv : v ∈ done ++ (v :: pending ++ appended) := by simp
      have hGc : GoodList key
          (done ++ (({ v with TxTimeEnd := some now } :: pending) ++ appended)) := by
        constructor
        · exact NoOverlapList_replace hG.1
            (fun a ha => bothOverlaps_close_left hsel2 ha)
        · intro w hw
          simp only [List.cons_append, List.mem_append, List.mem_cons] at hw
          rcases hw with h2 | rfl | h2 | h2
          · exact hG.2 w (by simp [h2])
          · have hv := hG.2 v hmemv
            exact ⟨WF_close hv.1 hsel2, hv.2⟩
          · exact hG.2 w (by simp [h2])
          · exact hG.2 w (by simp [h2])
      simp only [closeLoop, hsel, if_true] at h
      cases hov : overhangLoop key now v.Value
          ((hasOverlap ⟨cfg.validTime, cfg.endValidTime⟩ (vtRange v)).2)
          ((done ++ [{ v with TxTimeEnd := some now }]) ++ pending) appended with
      | mk r2 app2 =>
        rw [hov] at h
        have hGfix : GoodList key
            (((done ++ [{ v with TxTimeEnd := some now }]) ++ pending) ++ appended) :=
          GoodList_perm (by simp) hGc
        have hG3 : GoodList key
            (((done ++ [{ v with TxTimeEnd := some now }]) ++ pending) ++ app2) :=
          overhangLoop_good _ _ _ hGfix hov
        cases r2 with
        | error e =>
          simp only [Prod.mk.injEq] at h
          obtain ⟨rfl, rfl⟩ := h
          exact GoodList_perm (by simp) hG3
        | ok u =>
          exact ih (done ++ [{ v with TxTimeEnd := some now }]) app2
            (GoodList_perm (by simp) hG3) h
    · rw [Bool.not_eq_true] at hsel
      simp only [closeLoop, hsel, Bool.false_eq_true, if_false] at h
      exact ih (done ++ [v]) appended (GoodList_perm (by simp) hG) h

theorem InvStore_setKey {s : Store} {key : String} {vs : List VersionedKV}
    (hinv : InvStore s) (hk : key ≠ "") (hG : GoodList key vs) :
    InvStore (setKey s key vs) := by
  intro k2 vs2 hm
  rcases mem_setKey hm with h | h
  · rw [Prod.mk.injEq] at h
    obtain ⟨rfl, rfl⟩ := h
    exact ⟨hk, hG⟩
  · exact hinv k2 vs2 h

theorem update_preserves_inv {s : Store} {key : String} {value : Val} {isDelete : Bool}
    {options : WriteOptions} {now : Int} {res : Except Err Unit} {s2 : Store}
    (hinv : InvStore s) (h : update s key value isDelete options now = (res, s2)) :
    InvStore s2 := by
  unfold update at h
  cases hcfg : handleWriteOpts options now with
  | error e =>
    simp only [hcfg] at h
    simp only [Prod.mk.injEq] at h
    obtain ⟨rfl, rfl⟩ := h
    exact hinv
  | ok cfg =>
    simp only [hcfg] at h
    cases hlk : List.lookup key s with
    | some vs =>
      simp only [hlk] at h
      have hmem := lookup_mem hlk
      have hkey := (hinv key vs hmem).1
      have hG : GoodList key vs := (hinv key vs hmem).2
      cases hcl : closeLoop key now cfg [] vs [] with
      | mk r2 cur =>
        simp only [hcl] at h
        have hGcur : GoodList key cur :=
          closeLoop_good vs [] [] (by simpa using hG) hcl
        cases r2 with
        | error e =>
          simp only [Prod.mk.injEq] at h
          obtain ⟨rfl, rfl⟩ := h
          exact InvStore_setKey hinv hkey hGcur
        | ok u =>
          cases isDelete with
          | true =>
            simp only [if_true] at h
            simp only [Prod.mk.injEq] at h
            obtain ⟨rfl, rfl⟩ := h
            exact InvStore_setKey hinv hkey hGcur
          | false =>
            simp only [Bool.false_eq_true, if_false] at h
            cases hv : Validate (mkNewV key value cfg now) with
            | error e =>
              simp only [hv] at h
              simp only [Prod.mk.injEq] at h
              obtain ⟨rfl, rfl⟩ := h
              exact InvStore_setKey hinv hkey hGcur
            | ok u2 =>
              simp only [hv] at h
              cases ha : assertNoOverlap (mkNewV key value cfg now) cur with
              | error e =>
                simp only [ha] at h
                simp only [Prod.mk.injEq] at h
                obtain ⟨rfl, rfl⟩ := h
                exact InvStore_setKey hinv hkey hGcur
              | ok u3 =>
                simp only [ha] at h
                simp only [Prod.mk.injEq] at h
                obtain ⟨rfl, rfl⟩ := h
                refine InvStore_setKey hinv hkey ?_
                constructor
                · exact NoOverlapList_append_one hGcur.1 (assertNoOverlap_ok_iff.mp ha)
                · intro w hw
                  rw [List.mem_append] at hw
                  rcases hw with h2 | h2
                  · exact hGcur.2 w h2
                  · rw [List.mem_singleton] at h2
                    subst h2
                    exact ⟨Validate_ok_WF hv, rfl⟩
    | none =>
      simp only [hlk] at h
      cases isDelete with
      | true =>
        simp only [if_true] at h
        simp only [Prod.mk.injEq] at h
        obtain ⟨rfl, rfl⟩ := h
        exact hinv
      | false =>
        simp only [Bool.false_eq_true, if_false] at h
        cases hv : Validate (mkNewV key value cfg now) with
        | error e =>
          simp only [hv] at h
          simp only [Prod.mk.injEq] at h
          obtain ⟨rfl, rfl⟩ := h
          exact hinv
        | ok u2 =>
          simp only [hv] at h
          simp only [assertNoOverlap, List.any_nil, Bool.false_eq_true, if_false,
            Prod.mk.injEq] at h
          obtain ⟨rfl, rfl⟩ := h
          have hkey := (Validate_ok hv).1
          refine InvStore_setKey hinv hkey ?_
          constructor
          · exact List.pairwise_singleton _ _
          · intro w hw
            rw [List.mem_singleton] at hw
            subst hw
            exact ⟨Validate_ok_WF hv, rfl⟩

theorem newDBLoop_inv {seeds : List VersionedKV} :
    ∀ {s s2 : Store}, InvStore s → newDBLoop seeds s = .ok s2 → InvStore s2 := by
  induction seeds with
  | nil =>
    intro s s2 hinv h
    cases h
    exact hinv
  | cons kv rest ih =>
    intro s s2 hinv h
    unfold newDBLoop at h
    cases hv : Validate kv with
    | error e =>
      simp only [hv] at h
      cases h
    | ok u =>
      simp only [hv] at h
      cases ha : assertNoOverlap kv ((List.lookup kv.Key s).getD []) with
      | error e =>
        simp only [ha] at h
        cases h
      | ok u2 =>
        simp only [ha] at h
        refine ih ?_ h
        have hkey := (Validate_ok hv).1
        refine InvStore_setKey hinv hkey ?_
        have hGold : GoodList kv.Key ((List.lookup kv.Key s).getD []) := by
          cases hlk : List.lookup kv.Key s with
          | none => exact ⟨List.Pairwise.nil, fun v hv2 => absurd hv2 (List.not_mem_nil v)⟩
          | some old =>
            simpa using (hinv kv.Key old (lookup_mem hlk)).2
        constructor
        · exact NoOverlapList_append_one hGold.1 (assertNoOverlap_ok_iff.mp ha)
        · intro w hw
          rw [List.mem_append] at hw
          rcases hw with h2 | h2
          · exact hGold.2 w h2
          · rw [List.mem_singleton] at h2
            subst h2
            exact ⟨Validate_ok_WF hv, rfl⟩

theorem reachable_inv {s : Store} (h : Reachable s) : InvStore s := by
  induction h with
  | seeded seeds s hs =>
    exact newDBLoop_inv (fun k vs hm => absurd hm (List.not_mem_nil _)) hs
  | set s key value options now s2 hre hup ih =>
    exact update_preserves_inv ih hup
  | del s key options now s2 hre hup ih =>
    exact update_preserves_inv ih hup

/-! ## Shape of the lists produced by a write -/

theorem overhangLoop_ok_shape {key : String} {now : Int} {value : Val}
    (ohs : List timeRange) :
    ∀ (fixed appended : List VersionedKV) {u appended2},
      overhangLoop key now value ohs fixed appended = (.ok u, appended2) →
      appended2 = appended ++ ohs.map (commitOverhang key now value) := by
  induction ohs with
  | nil =>
    intro fixed appended u appended2 h
    simp only [overhangLoop, Prod.mk.injEq] at h
    obtain ⟨-, rfl⟩ := h
    simp
  | cons hd rest ih =>
    intro fixed appended u appended2 h
    simp only [overhangLoop] at h
    cases hv : Validate (commitOverhang key now value hd) with
    | error e => simp [hv] at h
    | ok u3 =>
      simp only [hv] at h
      cases ha : assertNoOverlap (commitOverhang key now value hd) (fixed ++ appended) with
      | error e => simp [ha] at h
      | ok u4 =>
        simp only [ha] at h
        have h2 := ih fixed (appended ++ [commitOverhang key now value hd]) h
        rw [h2]
        simp

theorem overhangLoop_any_shape {key : String} {now : Int} {value : Val}
    (ohs : List timeRange) :
    ∀ (fixed appended : List VersionedKV) {res appended2},
      overhangLoop key now value ohs fixed appended = (res, appended2) →
      ∃ pref, appended2 = appended ++ pref ∧
        ∀ r ∈ pref, r.TxTimeStart = now ∧ r.TxTimeEnd = none ∧ r.Key = key := by
  induction ohs with
  | nil =>
    intro fixed appended res appended2 h
    simp only [overhangLoop, Prod.mk.injEq] at h
    obtain ⟨-, rfl⟩ := h
    exact ⟨[], by simp, by simp⟩
  | cons hd rest ih =>
    intro fixed appended res appended2 h
    simp only [overhangLoop] at h
    cases hv : Validate (commitOverhang key now value hd) with
    | error e =>
      simp only [hv, Prod.mk.injEq] at h
      obtain ⟨-, rfl⟩ := h
      exact ⟨[], by simp, by simp⟩
    | ok u3 =>
      simp only [hv] at h
      cases ha : assertNoOverlap (commitOverhang key now value hd) (fixed ++ appended) with
      | error e =>
        simp only [ha, Prod.mk.injEq] at h
        obtain ⟨-, rfl⟩ := h
        exact ⟨[], by simp, by simp⟩
      | ok u4 =>
        simp only [ha] at h
        obtain ⟨pref, rfl, hpref⟩ := ih fixed (appended ++ [commitOverhang key now value hd]) h
        refine ⟨commitOverhang key now value hd :: pref, by simp, ?_⟩
        intro r hr
        rcases List.mem_cons.mp hr with rfl | h2
        · exact ⟨rfl, rfl, rfl⟩
        · exact hpref r h2

/-- Relation between a record before and after the close phase of a write:
either untouched, or (when selected) closed at `now`. -/
def CloseRel (now : Int) (cfg : writeConfig) (v v2 : VersionedKV) : Prop :=
  v2 = v ∨ (writeSelects cfg.validTime cfg.endValidTime now v = true ∧
            v2 = { v with TxTimeEnd := some now })

theorem CloseRel_refl_list (now : Int) (cfg : writeConfig) (l : List VersionedKV) :
    List.Forall₂ (CloseRel now cfg) l l := by
  induction l with
  | nil => exact List.Forall₂.nil
  | cons v rest ih => exact List.Forall₂.cons (Or.inl rfl) ih

theorem closeLoop_shape {key : String} {now : Int} {cfg : writeConfig}
    (pending : List VersionedKV) :
    ∀ (done appended : List VersionedKV) {res L},
      closeLoop key now cfg done pending appended = (res, L) →
      ∃ mid extra, L = done ++ mid ++ appended ++ extra ∧
        List.Forall₂ (CloseRel now cfg) pending mid ∧
        ∀ r ∈ extra, r.TxTimeStart = now ∧ r.TxTimeEnd = none ∧ r.Key = key := by
  induction pending with
  | nil =>
    intro done appended res L h
    simp only [closeLoop, Prod.mk.injEq] at h
    obtain ⟨-, rfl⟩ := h
    exact ⟨[], [], by simp, List.Forall₂.nil, by simp⟩
  | cons v pending ih =>
    intro done appended res L h
    by_cases hsel : writeSelects cfg.validTime cfg.endValidTime now v = true
    · simp only [closeLoop, hsel, if_true] at h
      cases hov : overhangLoop key now v.Value
          ((hasOverlap ⟨cfg.validTime, cfg.endValidTime⟩ (vtRange v)).2)
          ((done ++ [{ v with TxTimeEnd := some now }]) ++ pending) appended with
      | mk r2 app2 =>
        simp only [hov] at h
        obtain ⟨pref, rfl, hpref⟩ := overhangLoop_any_shape _ _ _ hov
        cases r2 with
        | error e =>
          simp only [Prod.mk.injEq] at h
          obtain ⟨-, rfl⟩ := h
          refine ⟨{ v with TxTimeEnd := some now } :: pending, pref, by simp, ?_, hpref⟩
          exact List.Forall₂.cons (Or.inr ⟨hsel, rfl⟩) (CloseRel_refl_list now cfg pending)
        | ok u =>
          obtain ⟨mid2, extra2, hL, hF, hex⟩ :=
            ih (done ++ [{ v with TxTimeEnd := some now }]) (appended ++ pref) h
          refine ⟨{ v with TxTimeEnd := some now } :: mid2, pref ++ extra2,
            by rw [hL]; simp, ?_, ?_⟩
          · exact List.Forall₂.cons (Or.inr ⟨hsel, rfl⟩) hF
          · intro r hr
            rcases List.mem_append.mp hr with h2 | h2
            · exact hpref r h2
            · exact hex r h2
    · rw [Bool.not_eq_true] at hsel
      simp only [closeLoop, hsel, Bool.false_eq_true, if_false] at h
      obtain ⟨mid2, extra2, hL, hF, hex⟩ := ih (done ++ [v]) appended h
      refine ⟨v :: mid2, extra2, by rw [hL]; simp, ?_, hex⟩
      exact List.Forall₂.cons (Or.inl rfl) hF

theorem closeLoop_ok_shape {key : String} {now : Int} {cfg : writeConfig}
    (pending : List VersionedKV) :
    ∀ (done appended : List VersionedKV) {u L},
      closeLoop key now cfg done pending appended = (.ok u, L) →
      L = done ++ pending.map (closeSel cfg now) ++ appended ++
          ohRecsAll key now cfg pending := by
  induction pending with
  | nil =>
    intro done appended u L h
    simp only [closeLoop, Prod.mk.injEq] at h
    obtain ⟨-, rfl⟩ := h
    simp [ohRecsAll]
  | cons v pending ih =>
    intro done appended u L h
    by_cases hsel : writeSelects cfg.validTime cfg.endValidTime now v = true
    · simp only [closeLoop, hsel, if_true] at h
      cases hov : overhangLoop key now v.Value
          ((hasOverlap ⟨cfg.validTime, cfg.endValidTime⟩ (vtRange v)).2)
          ((done ++ [{ v with TxTimeEnd := some now }]) ++ pending) appended with
      | mk r2 app2 =>
        simp only [hov] at h
        cases r2 with
        | error e => simp at h
        | ok u3 =>
          have happ2 := overhangLoop_ok_shape _ _ _ hov
          subst happ2
          have h2 := ih (done ++ [{ v with TxTimeEnd := some now }])
            (appended ++ ((hasOverlap ⟨cfg.validTime, cfg.endValidTime⟩ (vtRange v)).2).map
              (commitOverhang key now v.Value)) h
          rw [h2]
          simp only [List.map_cons, ohRecsAll, ohRecs, hsel, if_true, closeSel]
          simp [List.append_assoc]
    · rw [Bool.not_eq_true] at hsel
      simp only [closeLoop, hsel, Bool.false_eq_true, if_false] at h
      have h2 := ih (done ++ [v]) appended h
      rw [h2]
      simp only [List.map_cons, ohRecsAll, ohRecs, hsel, Bool.false_eq_true, if_false, closeSel]
      simp [List.append_assoc]

/-! ## Correspondence of point reads across a write -/

theorem isInRange_false_of_lt {tt : Int} {r : timeRange} (h : tt < r.start) :
    isInRange tt r = false := by
  by_contra hb
  rw [Bool.not_eq_false, isInRange_iff] at hb
  omega

theorem matchesAt_false_late {r : VersionedKV} {t tt : Int} (h : tt < r.TxTimeStart) :
    matchesAt t tt r = false := by
  unfold matchesAt
  rw [isInRange_false_of_lt (r := ttRange r) h, Bool.and_false]

theorem isInRange_close_eq {s tt now : Int} {e : Option Int}
    (htt : tt < now) (hsel : isInRange now ⟨s, e⟩ = true) :
    isInRange tt ⟨s, some now⟩ = isInRange tt ⟨s, e⟩ := by
  rw [isInRange_iff] at hsel
  simp only at hsel
  cases e with
  | none => simp only [isInRange, decide_eq_true htt, Bool.and_true]
  | some ev =>
    have he := hsel.2 ev rfl
    simp only [isInRange, decide_eq_true htt, decide_eq_true (show tt < ev by omega)]

theorem matchesAt_close_eq {v : VersionedKV} {t tt now : Int} (htt : tt < now)
    (hsel : isInRange now (ttRange v) = true) :
    matchesAt t tt { v with TxTimeEnd := some now } = matchesAt t tt v := by
  obtain ⟨k, val, ts, te, vs2, ve⟩ := v
  unfold matchesAt ttRange vtRange at *
  simp only at *
  rw [isInRange_close_eq htt hsel]

/-- Relation between records that a point read at transaction time `tt`
cannot tell apart, except through the transaction-time end field. -/
def FindRel (t tt : Int) (v v2 : VersionedKV) : Prop :=
  matchesAt t tt v2 = matchesAt t tt v ∧ stripTxEnd v2 = stripTxEnd v

theorem CloseRel_findRel {now : Int} {cfg : writeConfig} {t tt : Int} (htt : tt < now)
    {v v2 : VersionedKV} (h : CloseRel now cfg v v2) : FindRel t tt v v2 := by
  rcases h with rfl | ⟨hsel, rfl⟩
  · exact ⟨rfl, rfl⟩
  · exact ⟨matchesAt_close_eq htt (writeSelects_inRange hsel), rfl⟩

theorem findLoop_correspond {t tt : Int} {extra : List VersionedKV}
    (hextra : ∀ r ∈ extra, matchesAt t tt r = false)
    {l1 l2 : List VersionedKV} (hF : List.Forall₂ (FindRel t tt) l1 l2) :
    ∀ {acc1 acc2 : Option VersionedKV},
      ((acc1 = none ∧ acc2 = none) ∨
       (∃ a1 a2, acc1 = some a1 ∧ acc2 = some a2 ∧ stripTxEnd a2 = stripTxEnd a1)) →
      Except.map stripTxEnd (findLoop t tt (l2 ++ extra) acc2) =
        Except.map stripTxEnd (findLoop t tt l1 acc1) := by
  induction hF with
  | nil =>
    intro acc1 acc2 hacc
    rcases hacc with ⟨rfl, rfl⟩ | ⟨a1, a2, rfl, rfl, hstrip⟩
    · rw [List.nil_append, findLoop_none_noMatch hextra]
      rfl
    · rw [List.nil_append, findLoop_some_noMatch hextra]
      simp only [findLoop, Except.map, hstrip]
  | cons hrel htail ih =>
    rename_i v v2 l1t l2t
    intro acc1 acc2 hacc
    by_cases hm : matchesAt t tt v = true
    · have hm2 : matchesAt t tt v2 = true := by rw [hrel.1]; exact hm
      rcases hacc with ⟨rfl, rfl⟩ | ⟨a1, a2, rfl, rfl, hstrip⟩
      · simp only [List.cons_append, findLoop, hm, hm2, if_true]
        exact ih (Or.inr ⟨v, v2, rfl, rfl, hrel.2⟩)
      · simp only [List.cons_append, findLoop, hm, hm2, if_true]
    · rw [Bool.not_eq_true] at hm
      have hm2 : matchesAt t tt v2 = false := by rw [hrel.1]; exact hm
      simp only [List.cons_append, findLoop, hm, hm2, Bool.false_eq_true, if_false]
      exact ih hacc

/-! ## Update-level characterizations -/

theorem update_shape_present {s : Store} {key : String} {value : Val} {isDelete : Bool}
    {options : WriteOptions} {now : Int} {res : Except Err Unit} {s2 : Store}
    {cfg : writeConfig} {vs : List VersionedKV}
    (hcfg : handleWriteOpts options now = .ok cfg)
    (hlk : List.lookup key s = some vs)
    (h : update s key value isDelete options now = (res, s2)) :
    ∃ mid extra, s2 = setKey s key (mid ++ extra) ∧
      List.Forall₂ (CloseRel now cfg) vs mid ∧
      ∀ r ∈ extra, r.TxTimeStart = now := by
  unfold update at h
  simp only [hcfg, hlk] at h
  cases hcl : closeLoop key now cfg [] vs [] with
  | mk r2 cur =>
    simp only [hcl] at h
    obtain ⟨mid, extra, hL, hF, hex⟩ := closeLoop_shape vs [] [] hcl
    simp only [List.nil_append, List.append_nil] at hL
    subst hL
    cases r2 with
    | error e =>
      simp only [Prod.mk.injEq] at h
      obtain ⟨-, rfl⟩ := h
      exact ⟨mid, extra, rfl, hF, fun r hr => (hex r hr).1⟩
    | ok u =>
      cases isDelete with
      | true =>
        simp only [if_true, Prod.mk.injEq] at h
        obtain ⟨-, rfl⟩ := h
        exact ⟨mid, extra, rfl, hF, fun r hr => (hex r hr).1⟩
      | false =>
        simp only [Bool.false_eq_true, if_false] at h
        cases hv : Validate (mkNewV key value cfg now) with
        | error e =>
          simp only [hv, Prod.mk.injEq] at h
          obtain ⟨-, rfl⟩ := h
          exact ⟨mid, extra, rfl, hF, fun r hr => (hex r hr).1⟩
        | ok u2 =>
          simp only [hv] at h
          cases ha : assertNoOverlap (mkNewV key value cfg now) (mid ++ extra) with
          | error e =>
            simp only [ha, Prod.mk.injEq] at h
            obtain ⟨-, rfl⟩ := h
            exact ⟨mid, extra, rfl, hF, fun r hr => (hex r hr).1⟩
          | ok u3 =>
            simp only [ha, Prod.mk.injEq] at h
            obtain ⟨-, rfl⟩ := h
            refine ⟨mid, extra ++ [mkNewV key value cfg now], by simp, hF, ?_⟩
            intro r hr
            rcases List.mem_append.mp hr with h2 | h2
            · exact (hex r h2).1
            · rw [List.mem_singleton] at h2
              subst h2
              rfl

theorem update_shape_absent {s : Store} {key : String} {value : Val} {isDelete : Bool}
    {options : WriteOptions} {now : Int} {res : Except Err Unit} {s2 : Store}
    {cfg : writeConfig}
    (hcfg : handleWriteOpts options now = .ok cfg)
    (hlk : List.lookup key s = none)
    (h : update s key value isDelete options now = (res, s2)) :
    s2 = s ∨ s2 = setKey s key [mkNewV key value cfg now] := by
  unfold update at h
  simp only [hcfg, hlk] at h
  cases isDelete with
  | true =>
    simp only [if_true, Prod.mk.injEq] at h
    exact Or.inl h.2.symm
  | false =>
    simp only [Bool.false_eq_true, if_false] at h
    cases hv : Validate (mkNewV key value cfg now) with
    | error e =>
      simp only [hv, Prod.mk.injEq] at h
      exact Or.inl h.2.symm
    | ok u2 =>
      simp only [hv, assertNoOverlap, List.any_nil, Bool.false_eq_true, if_false,
        Prod.mk.injEq] at h
      exact Or.inr h.2.symm

theorem update_ok_shape_present {s : Store} {key : String} {value : Val}
    {options : WriteOptions} {now : Int} {s2 : Store} {cfg : writeConfig}
    {vs : List VersionedKV}
    (hcfg : handleWriteOpts options now = .ok cfg)
    (hlk : List.lookup key s = some vs)
    (h : update s key value false options now = (.ok (), s2)) :
    Validate (mkNewV key value cfg now) = .ok () ∧
    s2 = setKey s key ((vs.map (closeSel cfg now) ++ ohRecsAll key now cfg vs) ++
        [mkNewV key value cfg now]) := by
  unfold update at h
  simp only [hcfg, hlk] at h
  cases hcl : closeLoop key now cfg [] vs [] with
  | mk r2 cur =>
    simp only [hcl] at h
    cases r2 with
    | error e => simp at h
    | ok u =>
      simp only [Bool.false_eq_true, if_false] at h
      cases hv : Validate (mkNewV key value cfg now) with
      | error e => simp [hv] at h
      | ok u2 =>
        simp only [hv] at h
        cases ha : assertNoOverlap (mkNewV key value cfg now) cur with
        | error e => simp [ha] at h
        | ok u3 =>
          simp only [ha, Prod.mk.injEq] at h
          obtain ⟨-, rfl⟩ := h
          have hcur := closeLoop_ok_shape vs [] [] hcl
          simp only [List.nil_append, List.append_nil] at hcur
          subst hcur
          exact ⟨by simp [hv], rfl⟩

theorem forall2_mem_right {α β : Type} {R : α → β → Prop} {l1 : List α} {l2 : List β}
    (h : List.Forall₂ R l1 l2) {b : β} (hb : b ∈ l2) : ∃ a ∈ l1, R a b := by
  induction h with
  | nil => cases hb
  | cons hrel htail ih =>
    rcases List.mem_cons.mp hb with rfl | h2
    · exact ⟨_, List.mem_cons_self _ _, hrel⟩
    · obtain ⟨a, ha, har⟩ := ih h2
      exact ⟨a, List.mem_cons.mpr (Or.inr ha), har⟩

theorem update_strip_get {s : Store} {key : String} {value : Val} {isDelete : Bool}
    {options : WriteOptions} {now : Int} {res : Except Err Unit} {s2 : Store}
    (h : update s key value isDelete options now = (res, s2))
    (key2 : String) (t tt : Int) (htt : tt < now) :
    Except.map stripTxEnd (Get s2 key2 t tt) = Except.map stripTxEnd (Get s key2 t tt) := by
  cases hcfg : handleWriteOpts options now with
  | error e =>
    have hs : s2 = s := by
      unfold update at h
      simp only [hcfg, Prod.mk.injEq] at h
      exact h.2.symm
    rw [hs]
  | ok cfg =>
    cases hlk : List.lookup key s with
    | some vs =>
      obtain ⟨mid, extra, rfl, hF, hex⟩ := update_shape_present hcfg hlk h
      by_cases hk : key2 = key
      · subst hk
        unfold Get
        simp only [lookup_setKey_self, hlk]
        unfold findVersionByTime
        exact findLoop_correspond
          (fun r hr => matchesAt_false_late (by rw [hex r hr]; exact htt))
          (hF.imp (fun a b hrel => CloseRel_findRel htt hrel))
          (Or.inl ⟨rfl, rfl⟩)
      · unfold Get
        rw [lookup_setKey_ne hk]
    | none =>
      rcases update_shape_absent hcfg hlk h with rfl | rfl
      · rfl
      · by_cases hk : key2 = key
        · subst hk
          unfold Get
          simp only [lookup_setKey_self, hlk]
          unfold findVersionByTime
          rw [findLoop_none_noMatch (fun r hr => by
              rw [List.mem_singleton] at hr
              subst hr
              exact matchesAt_false_late htt)]
        · unfold Get
          rw [lookup_setKey_ne hk]

/-! ## Sort permutation, write-option facts, and the set-window transfer -/

theorem revInsert_perm (less : VersionedKV → VersionedKV → Bool) (r : VersionedKV)
    (acc : List VersionedKV) : (revInsert less r acc).Perm (r :: acc) := by
  induction acc with
  | nil => exact List.Perm.refl _
  | cons p ps ih =>
    unfold revInsert
    by_cases h : less r p = true
    · rw [if_pos h]
      exact (ih.cons p).trans (List.Perm.swap r p ps)
    · rw [if_neg h]

theorem sortFold_perm (less : VersionedKV → VersionedKV → Bool) (xs : List VersionedKV) :
    ∀ acc, (xs.foldl (fun a x => revInsert less x a) acc).Perm (xs ++ acc) := by
  induction xs with
  | nil => intro acc; exact List.Perm.refl _
  | cons x xs ih =>
    intro acc
    have h1 := ih (revInsert less x acc)
    have h2 : (xs ++ revInsert less x acc).Perm (xs ++ (x :: acc)) :=
      List.Perm.append_left xs (revInsert_perm less x acc)
    have h3 : (xs ++ (x :: acc)).Perm (x :: (xs ++ acc)) := List.perm_middle
    exact (h1.trans h2).trans h3

theorem sortSlice_perm (less : VersionedKV → VersionedKV → Bool) (xs : List VersionedKV) :
    (sortSlice less xs).Perm xs := by
  unfold sortSlice
  have h1 := (List.reverse_perm (xs.foldl (fun a x => revInsert less x a) [])).trans
    (sortFold_perm less xs [])
  simpa using h1

theorem handleWriteOpts_ok_facts {options : WriteOptions} {now : Int} {cfg : writeConfig}
    (h : handleWriteOpts options now = .ok cfg) :
    cfg.validTime = options.ValidTime.getD now ∧
    cfg.endValidTime = options.EndValidTime ∧
    (∀ e, options.EndValidTime = some e → options.ValidTime.getD now < e) ∧
    options.ValidTime.getD now ≤ now ∧
    (∀ e, options.EndValidTime = some e → e ≤ now) := by
  unfold handleWriteOpts at h
  cases hE : options.EndValidTime with
  | none =>
    simp only [hE] at h
    split_ifs at h with h1
    cases h
    refine ⟨rfl, rfl, ?_, ?_, ?_⟩
    · simp
    · omega
    · simp
  | some ev =>
    simp only [hE] at h
    split_ifs at h with h1 h2 h3
    cases h
    refine ⟨rfl, rfl, fun e he => ?_, ?_, fun e he => ?_⟩
    · cases he
      omega
    · omega
    · cases he
      omega

/-- Violated write-option times make `update` fail without touching the store. -/
theorem update_invalid_opts {s : Store} {key : String} {value : Val} {isDelete : Bool}
    {options : WriteOptions} {now : Int}
    (hbad : (∃ e, options.EndValidTime = some e ∧ e ≤ options.ValidTime.getD now) ∨
            options.ValidTime.getD now > now ∨
            (∃ e, options.EndValidTime = some e ∧ e > now)) :
    ∃ er, update s key value isDelete options now = (.error er, s) := by
  cases hres : handleWriteOpts options now with
  | error er =>
    refine ⟨er, ?_⟩
    unfold update
    simp only [hres]
  | ok cfg =>
    exfalso
    obtain ⟨-, -, h3, h4, h5⟩ := handleWriteOpts_ok_facts hres
    rcases hbad with ⟨e, he, hle⟩ | hfut | ⟨e, he, hgt⟩
    · have := h3 e he
      omega
    · omega
    · have := h5 e he
      omega

theorem mem_ohRecsAll {key : String} {now : Int} {cfg : writeConfig}
    {vs : List VersionedKV} {r : VersionedKV} :
    r ∈ ohRecsAll key now cfg vs ↔
    ∃ v, v ∈ vs ∧ writeSelects cfg.validTime cfg.endValidTime now v = true ∧
      ∃ hR, hR ∈ (hasOverlap ⟨cfg.validTime, cfg.endValidTime⟩ (vtRange v)).2 ∧
        r = commitOverhang key now v.Value hR := by
  induction vs with
  | nil =>
    simp [ohRecsAll]
  | cons v vs ih =>
    unfold ohRecsAll
    rw [List.mem_append, ih]
    constructor
    · rintro (h | ⟨v2, hv2, hsel, hR, hhr, rfl⟩)
      · unfold ohRecs at h
        split_ifs at h with hsel
        · rw [List.mem_map] at h
          obtain ⟨hR, hhr, rfl⟩ := h
          exact ⟨v, List.mem_cons_self _ _, hsel, hR, hhr, rfl⟩
        · cases h
      · exact ⟨v2, List.mem_cons.mpr (Or.inr hv2), hsel, hR, hhr, rfl⟩
    · rintro ⟨v2, hv2, hsel, hR, hhr, rfl⟩
      rcases List.mem_cons.mp hv2 with rfl | h2
      · left
        unfold ohRecs
        rw [if_pos hsel, List.mem_map]
        exact ⟨hR, hhr, rfl⟩
      · right
        exact ⟨v2, h2, hsel, hR, hhr, rfl⟩

theorem matchesAt_mkNewV {key : String} {value : Val} {cfg : writeConfig} {now t : Int} :
    matchesAt t now (mkNewV key value cfg now) =
      isInRange t ⟨cfg.validTime, cfg.endValidTime⟩ := by
  unfold matchesAt mkNewV vtRange ttRange
  simp only
  rw [show isInRange now ⟨now, none⟩ = true by simp [isInRange], Bool.and_true]

theorem matchesAt_commitOverhang {key : String} {value : Val} {now t : Int} {hR : timeRange} :
    matchesAt t now (commitOverhang key now value hR) = isInRange t hR := by
  unfold matchesAt commitOverhang vtRange ttRange
  simp only
  rw [show isInRange now ⟨now, none⟩ = true by simp [isInRange], Bool.and_true]

theorem matchesAt_closed_at_now {v : VersionedKV} {t now : Int} :
    matchesAt t now { v with TxTimeEnd := some now } = false := by
  unfold matchesAt ttRange
  simp [isInRange]

/-- Transfer of point matches at transaction time `now` across a successful
`Set`, outside the write's valid-time window. -/
theorem setWindow_match_transfer {key : String} {now : Int} {cfg : writeConfig}
    {vs : List VersionedKV} {value : Val} {t : Int}
    (ht : isInRange t ⟨cfg.validTime, cfg.endValidTime⟩ = false) (u : Val) :
    (∃ r, r ∈ (vs.map (closeSel cfg now) ++ ohRecsAll key now cfg vs) ++
        [mkNewV key value cfg now] ∧ matchesAt t now r = true ∧ r.Value = u) ↔
    (∃ r, r ∈ vs ∧ matchesAt t now r = true ∧ r.Value = u) := by
  constructor
  · rintro ⟨r, hr, hm, hval⟩
    rcases List.mem_append.mp hr with hr2 | hr2
    · rcases List.mem_append.mp hr2 with hr3 | hr3
      · rw [List.mem_map] at hr3
        obtain ⟨v, hv, rfl⟩ := hr3
        by_cases hsel : writeSelects cfg.validTime cfg.endValidTime now v = true
        · exfalso
          rw [show closeSel cfg now v = { v with TxTimeEnd := some now } by
              simp [closeSel, hsel]] at hm
          rw [matchesAt_closed_at_now] at hm
          cases hm
        · rw [Bool.not_eq_true] at hsel
          rw [show closeSel cfg now v = v by simp [closeSel, hsel]] at hm hval
          exact ⟨v, hv, hm, hval⟩
      · rw [mem_ohRecsAll] at hr3
        obtain ⟨v, hv, hsel, hR, hhr, rfl⟩ := hr3
        rw [matchesAt_commitOverhang] at hm
        have hvt : isInRange t (vtRange v) = true :=
          (overhang_mem_iff (writeSelects_overlap hsel) ht).mpr ⟨hR, hhr, hm⟩
        have htt : isInRange now (ttRange v) = true := writeSelects_inRange hsel
        refine ⟨v, hv, ?_, hval⟩
        unfold matchesAt
        rw [hvt, htt]
        rfl
    · rw [List.mem_singleton] at hr2
      subst hr2
      rw [matchesAt_mkNewV, ht] at hm
      cases hm
  · rintro ⟨r, hr, hm, hval⟩
    by_cases hsel : writeSelects cfg.validTime cfg.endValidTime now r = true
    · have hvt : isInRange t (vtRange r) = true := by
        unfold matchesAt at hm
        simp only [Bool.and_eq_true] at hm
        exact hm.1
      obtain ⟨hR, hhr, hin⟩ :=
        (overhang_mem_iff (writeSelects_overlap hsel) ht).mp hvt
      refine ⟨commitOverhang key now r.Value hR, ?_, ?_, hval⟩
      · apply List.mem_append.mpr
        left
        apply List.mem_append.mpr
        right
        rw [mem_ohRecsAll]
        exact ⟨r, hr, hsel, hR, hhr, rfl⟩
      · rw [matchesAt_commitOverhang]
        exact hin
    · rw [Bool.not_eq_true] at hsel
      refine ⟨r, ?_, hm, hval⟩
      apply List.mem_append.mpr
      left
      apply List.mem_append.mpr
      left
      rw [List.mem_map]
      exact ⟨r, hr, by simp [closeSel, hsel]⟩

/-! ## Claims -/

/-- C1: No bitemporal overlap per key — in every store state reachable by
constructing the DB from seeds that pass validation and performing any
sequence of successful Set and Delete operations, no two distinct records
stored for a key overlap on both the valid-time and the transaction-time
axis simultaneously (half-open semantics, open ends as plus infinity, as
computed by `hasOverlap`). -/
theorem C1_no_bitemporal_overlap {s : Store} (h : Reachable s) :
    ∀ key vs, List.lookup key s = some vs →
      vs.Pairwise (fun a b => bothOverlaps a b = false) := by
  intro key vs hlk
  exact (reachable_inv h key vs (lookup_mem hlk)).2.1

theorem C1_no_bitemporal_overlap_witness :
    ([⟨kA, some 10, 1, some 5, 1, none⟩, ⟨kA, some 10, 5, none, 1, some 5⟩,
      ⟨kA, some 20, 5, none, 5, none⟩] : List VersionedKV).Pairwise
      (fun a b => bothOverlaps a b = false) :=
  C1_no_bitemporal_overlap
    (Reachable.set dbA kA (some 20) ⟨none, none⟩ 5 dbA2
      (Reachable.seeded [recA] dbA (by decide)) (by decide))
    kA [⟨kA, some 10, 1, some 5, 1, none⟩, ⟨kA, some 10, 5, none, 1, some 5⟩,
      ⟨kA, some 20, 5, none, 5, none⟩] (by decide)

/-- C5: Point resolver — for a resolved target (vt, tt): with exactly one
stored record for the key containing the point, Get returns that record;
with zero containing records (or no records for the key at all) it returns
NotFound; with two or more it returns an error distinct from NotFound. -/
theorem C5_point_resolver (s : Store) (key : String) (vt tt : Int) :
    (((List.lookup key s).getD []).filter (fun v => matchesAt vt tt v) = [] →
      Get s key vt tt = .error .notFound) ∧
    (∀ r, ((List.lookup key s).getD []).filter (fun v => matchesAt vt tt v) = [r] →
      Get s key vt tt = .ok r) ∧
    (2 ≤ (((List.lookup key s).getD []).filter (fun v => matchesAt vt tt v)).length →
      Get s key vt tt = .error .multipleMatches) ∧
    Err.multipleMatches ≠ Err.notFound := by
  cases hlk : List.lookup key s with
  | none =>
    simp only [Option.getD_none, List.filter_nil, Get, hlk, List.length_nil]
    refine ⟨fun h => by trivial, fun r hr => by simp at hr, fun hlen => by omega, by decide⟩
  | some vs =>
    simp only [Option.getD_some, Get, hlk]
    refine ⟨fun h => ?_, fun r hr => find_of_filter_single hr,
      fun hlen => find_of_filter_multi hlen, by decide⟩
    exact findLoop_none_noMatch (fun r2 hr2 => by
      have h3 := List.filter_eq_nil_iff.mp h r2 hr2
      rwa [Bool.not_eq_true] at h3)

theorem C5_point_resolver_witness : Get dbA kA 1 1 = .ok recA :=
  (C5_point_resolver dbA kA 1 1).2.1 recA (by decide)

/-- C6: Half-open membership on both axes — a query instant equal to an
interval's start matches (inclusively, given a well-formed interval), an
instant equal to a closed interval's end does not match, an open end behaves
as plus infinity; consequently, on a key holding a single record, Get at the
record's ValidTimeEnd is NotFound while Get at its ValidTimeStart returns
the record, and the same holds on the transaction-time axis. -/
theorem C6_half_open_membership :
    (∀ s0 e0 : Int, isInRange e0 ⟨s0, some e0⟩ = false) ∧
    (∀ s0 e0 : Int, s0 < e0 → isInRange s0 ⟨s0, some e0⟩ = true) ∧
    (∀ t s0 : Int, s0 ≤ t → isInRange t ⟨s0, none⟩ = true) ∧
    (∀ (s : Store) (key : String) (r : VersionedKV) (tt : Int),
      List.lookup key s = some [r] → isInRange tt (ttRange r) = true →
      (∀ ve, r.ValidTimeEnd = some ve → Get s key ve tt = .error .notFound) ∧
      ((∀ ve, r.ValidTimeEnd = some ve → r.ValidTimeStart < ve) →
        Get s key r.ValidTimeStart tt = .ok r)) ∧
    (∀ (s : Store) (key : String) (r : VersionedKV) (vt : Int),
      List.lookup key s = some [r] → isInRange vt (vtRange r) = true →
      (∀ te, r.TxTimeEnd = some te → Get s key vt te = .error .notFound) ∧
      ((∀ te, r.TxTimeEnd = some te → r.TxTimeStart < te) →
        Get s key vt r.TxTimeStart = .ok r)) := by
  have hend : ∀ s0 e0 : Int, isInRange e0 ⟨s0, some e0⟩ = false := by
    intro s0 e0
    simp [isInRange]
  have hstart : ∀ (s0 : Int) (e : Option Int), (∀ e0, e = some e0 → s0 < e0) →
      isInRange s0 ⟨s0, e⟩ = true := by
    intro s0 e hwf
    cases e with
    | none => simp [isInRange]
    | some e0 =>
      simp only [isInRange, decide_eq_true (le_refl s0), Bool.true_and]
      exact decide_eq_true (hwf e0 rfl)
  have hsingle : ∀ (r : VersionedKV) (vt2 tt2 : Int), matchesAt vt2 tt2 r = true →
      findVersionByTime [r] vt2 tt2 = .ok r := by
    intro r vt2 tt2 hm
    unfold findVersionByTime findLoop
    rw [hm]
    simp [findLoop]
  refine ⟨hend, fun s0 e0 hlt => hstart s0 (some e0) (fun e1 he => by cases he; exact hlt),
    fun t s0 hle => by simp [isInRange, hle], ?_, ?_⟩
  · intro s key r tt hlk htt
    constructor
    · intro ve hve
      simp only [Get, hlk]
      apply findLoop_none_noMatch
      intro r2 hr2
      rw [List.mem_singleton] at hr2
      subst hr2
      unfold matchesAt
      have hvt2 : isInRange ve (vtRange r2) = false := by
        unfold vtRange
        rw [hve]
        exact hend r2.ValidTimeStart ve
      rw [hvt2, Bool.false_and]
    · intro hwf
      simp only [Get, hlk]
      apply hsingle
      unfold matchesAt
      rw [htt, Bool.and_true]
      exact hstart r.ValidTimeStart r.ValidTimeEnd hwf
  · intro s key r vt hlk hvt
    constructor
    · intro te hte
      simp only [Get, hlk]
      apply findLoop_none_noMatch
      intro r2 hr2
      rw [List.mem_singleton] at hr2
      subst hr2
      unfold matchesAt
      have htt2 : isInRange te (ttRange r2) = false := by
        unfold ttRange
        rw [hte]
        exact hend r2.TxTimeStart te
      rw [htt2, Bool.and_false]
    · intro hwf
      simp only [Get, hlk]
      apply hsingle
      unfold matchesAt
      rw [hvt, Bool.true_and]
      exact hstart r.TxTimeStart r.TxTimeEnd hwf

theorem C6_half_open_membership_witness :
    Get dbSingle kA 5 1 = .error .notFound ∧ Get dbSingle kA 1 1 = .ok histA ∧
    Get dbSingle kA 1 20 = .error .notFound := by
  refine ⟨?_, ?_, ?_⟩
  · exact (C6_half_open_membership.2.2.2.1 dbSingle kA histA 1 (by decide) (by decide)).1
      5 (by decide)
  · exact (C6_half_open_membership.2.2.2.1 dbSingle kA histA 1 (by decide) (by decide)).2
      (by intro ve hve; cases hve; decide)
  · exact (C6_half_open_membership.2.2.2.2 dbSingle kA histA 1 (by decide) (by decide)).1
      20 (by decide)

/-- C7 as stated is false: the comparator's valid-time tie-break disjunct is
not guarded by transaction-time-end equality (Go operator precedence), so
`History` can return a list that is not sorted by descending transaction-time
end: here the record with end 10 precedes the record with end 20. -/
theorem C7_history_counterexample :
    NewDB [histA, histB] = .ok dbHist ∧
    History dbHist kA = .ok [histB, histA] ∧
    ¬ claimedHistOrder [histB, histA] := by
  refine ⟨by decide, by decide, fun hord => ?_⟩
  have h := (List.pairwise_cons.mp hord).1 histA (List.mem_singleton.mpr rfl)
  exact absurd h.1 (by decide)

/-- C7 amended: History returns all of the key's records — no omissions, no
duplicates (a permutation of the stored list); the claimed descending
(transaction-time end, valid-time end) order does not hold in general. -/
theorem C7_history_amended {s : Store} {key : String} {vs l : List VersionedKV}
    (hlk : List.lookup key s = some vs) (hh : History s key = .ok l) :
    l.Perm vs := by
  unfold History at hh
  simp only [hlk, Except.ok.injEq] at hh
  subst hh
  exact sortSlice_perm histLess vs

theorem C7_history_amended_witness :
    ([histB, histA] : List VersionedKV).Perm [histA, histB] :=
  @C7_history_amended dbHist kA [histA, histB] [histB, histA] (by decide) (by decide)

/-- C9 as stated is false: two successful Sets at the same clock instant
close the first record to an empty transaction-time interval, so
`TxTimeStart < TxTimeEnd` fails for a stored record in a reachable state. -/
theorem C9_counterexample :
    NewDB [] = .ok ([] : Store) ∧
    (Set ([] : Store) kA (some 1) ⟨none, none⟩ 1).1 = .ok () ∧
    (Set dbTwin1 kA (some 2) ⟨none, none⟩ 1).1 = .ok () ∧
    List.lookup kA dbTwin2 = some [twinClosed, ⟨kA, some 2, 1, none, 1, none⟩] ∧
    twinClosed.TxTimeEnd = some 1 ∧ ¬ twinClosed.TxTimeStart < 1 := by decide

/-- C9 amended: in every reachable store state, every stored record satisfies
`TxTimeStart ≤ TxTimeEnd` when the transaction-time end is closed (equality
possible when a record is closed at the instant it was created) and the
strict `ValidTimeStart < ValidTimeEnd` when the valid-time end is closed. -/
theorem C9_well_formed_amended {s : Store} (h : Reachable s) :
    ∀ key vs, List.lookup key s = some vs → ∀ v ∈ vs,
      (∀ te, v.TxTimeEnd = some te → v.TxTimeStart ≤ te) ∧
      (∀ ve, v.ValidTimeEnd = some ve → v.ValidTimeStart < ve) := by
  intro key vs hlk v hv
  exact ((reachable_inv h key vs (lookup_mem hlk)).2.2 v hv).1

theorem C9_well_formed_amended_witness : twinClosed.TxTimeStart ≤ 1 :=
  (C9_well_formed_amended
    (Reachable.set dbTwin1 kA (some 2) ⟨none, none⟩ 1 dbTwin2
      (Reachable.set ([] : Store) kA (some 1) ⟨none, none⟩ 1 dbTwin1
        (Reachable.seeded [] [] (by decide)) (by decide)) (by decide))
    kA [twinClosed, ⟨kA, some 2, 1, none, 1, none⟩] (by decide) twinClosed (by decide)).1
    1 (by decide)

/-- C10: Write-option validation precedes the non-existent-key no-op —
Delete with an end valid time at or before the start valid time, or with a
valid time in the future relative to now, fails and leaves the store
unchanged even when the key has no records at all. -/
theorem C10_delete_validation_precedes_noop (s : Store) (key : String)
    (options : WriteOptions) (now : Int)
    (_hlk : List.lookup key s = none)
    (hbad : (∃ e, options.EndValidTime = some e ∧ e ≤ options.ValidTime.getD now) ∨
            options.ValidTime.getD now > now ∨
            (∃ e, options.EndValidTime = some e ∧ e > now)) :
    ∃ er, Delete s key options now = (.error er, s) :=
  update_invalid_opts hbad

theorem C10_delete_validation_witness :
    ∃ er, Delete ([] : Store) kA ⟨some 2, some 1⟩ 5 = (.error er, ([] : Store)) :=
  C10_delete_validation_precedes_noop [] kA ⟨some 2, some 1⟩ 5 (by decide)
    (Or.inl ⟨1, by decide, by decide⟩)

/-- C8 as stated is false: Delete with an empty key and otherwise valid write
options succeeds as a no-op instead of failing — the empty key has no map
entry, and Delete emits no new record that would reach the key validation. -/
theorem C8_counterexample :
    Delete ([] : Store) "" ⟨none, none⟩ 1 = (.ok (), ([] : Store)) := by decide

/-- C8 amended: every Set and Delete fails and leaves the store unchanged
when the effective end valid time is at or before the effective start valid
time, or either effective valid time is after now (start defaulting to now,
end to open); Set with an empty key also fails and leaves the store
unchanged; but Delete with an empty key and valid options succeeds without
modifying the store. -/
theorem C8_write_validation_amended (s : Store) (key : String) (value : Val)
    (isDelete : Bool) (options : WriteOptions) (now : Int) :
    (((∃ e, options.EndValidTime = some e ∧ e ≤ options.ValidTime.getD now) ∨
      options.ValidTime.getD now > now ∨
      (∃ e, options.EndValidTime = some e ∧ e > now)) →
      ∃ er, update s key value isDelete options now = (.error er, s)) ∧
    (InvStore s →
      (∃ er, Set s ("" : String) value options now = (.error er, s)) ∧
      (∀ cfg, handleWriteOpts options now = .ok cfg →
        Delete s ("" : String) options now = (.ok (), s))) := by
  refine ⟨fun hbad => update_invalid_opts hbad, fun hinv => ⟨?_, ?_⟩⟩
  · cases hcfg : handleWriteOpts options now with
    | error er =>
      refine ⟨er, ?_⟩
      unfold Set update
      simp only [hcfg]
    | ok cfg =>
      refine ⟨.keyRequired, ?_⟩
      unfold Set update
      simp only [hcfg, InvStore_lookup_empty hinv]
      rw [show Validate (mkNewV ("" : String) value cfg now) = .error .keyRequired from rfl]
      rfl
  · intro cfg hcfg
    unfold Delete update
    simp only [hcfg, InvStore_lookup_empty hinv, if_true]

theorem C8_write_validation_witness :
    update ([] : Store) kA (some 3) false ⟨none, some 7⟩ 5 =
      (.error .vtEndInFuture, ([] : Store)) ∧
    Set ([] : Store) "" (some 3) ⟨none, none⟩ 5 = (.error .keyRequired, ([] : Store)) := by
  constructor
  · obtain ⟨er, her⟩ := (C8_write_validation_amended [] kA (some 3) false ⟨none, some 7⟩ 5).1
      (Or.inr (Or.inr ⟨7, by decide, by decide⟩))
    have : er = .vtEndInFuture := by
      have h2 : (update ([] : Store) kA (some 3) false ⟨none, some 7⟩ 5).1 = .error er := by
        rw [her]
      rw [show (update ([] : Store) kA (some 3) false ⟨none, some 7⟩ 5).1 =
        .error .vtEndInFuture from rfl] at h2
      cases h2
      rfl
    rw [this] at her
    exact her
  · obtain ⟨er, her⟩ := ((C8_write_validation_amended [] "" (some 3) false ⟨none, none⟩ 5).2
      (fun k vs hm => absurd hm (List.not_mem_nil _))).1
    have : er = .keyRequired := by
      have h2 : (Set ([] : Store) "" (some 3) ⟨none, none⟩ 5).1 = .error er := by
        rw [her]
      rw [show (Set ([] : Store) "" (some 3) ⟨none, none⟩ 5).1 =
        .error .keyRequired from rfl] at h2
      cases h2
      rfl
    rw [this] at her
    exact her

/-- C4 as stated is false: a Set can fail mid-commit after mutating the
store.  Against a seed whose valid time spans the zero instant, a write with
end valid time exactly at the zero instant closes the seed and appends one
overhang, then fails validating the second overhang (zero-valued valid time
start), returning an error with the store already changed. -/
theorem C4_counterexample :
    NewDB [recNeg] = .ok dbNeg ∧
    (Set dbNeg kA (some 7) ⟨some (-5), some 0⟩ 5).1 = .error .vtStartZero ∧
    (Set dbNeg kA (some 7) ⟨some (-5), some 0⟩ 5).2 ≠ dbNeg := by decide

/-- C4 amended: a Set or Delete that fails write-option validation leaves
the store exactly unchanged, and any failing write on a key with no records
leaves the store exactly unchanged; an error raised mid-commit on a key with
records can leave the store partially mutated (closures and earlier
overhangs persist). -/
theorem C4_write_atomicity_amended (s : Store) (key : String) (value : Val)
    (isDelete : Bool) (options : WriteOptions) (now : Int) :
    (∀ e, handleWriteOpts options now = .error e →
      update s key value isDelete options now = (.error e, s)) ∧
    (List.lookup key s = none →
      ∀ res s2, update s key value isDelete options now = (res, s2) →
      (∃ e, res = .error e) → s2 = s) := by
  constructor
  · intro e he
    unfold update
    simp only [he]
  · intro hlk res s2 h hex
    obtain ⟨e, rfl⟩ := hex
    cases hcfg : handleWriteOpts options now with
    | error e2 =>
      unfold update at h
      simp only [hcfg, Prod.mk.injEq] at h
      exact h.2.symm
    | ok cfg =>
      unfold update at h
      simp only [hcfg, hlk] at h
      cases isDelete with
      | true => simp at h
      | false =>
        simp only [Bool.false_eq_true, if_false] at h
        cases hv : Validate (mkNewV key value cfg now) with
        | error e2 =>
          simp only [hv, Prod.mk.injEq] at h
          exact h.2.symm
        | ok u =>
          simp only [hv, assertNoOverlap, List.any_nil, Bool.false_eq_true, if_false] at h
          simp at h

theorem C4_write_atomicity_witness :
    update ([] : Store) kA none true ⟨some 2, some 1⟩ 5 =
      (.error .vtStartNotBeforeEnd, ([] : Store)) :=
  (C4_write_atomicity_amended [] kA none true ⟨some 2, some 1⟩ 5).1
    .vtStartNotBeforeEnd (by decide)

/-- C3 as stated is false: a query at a past transaction time returns the
same record before and after a write, but the record a write closes is
mutated in place — its transaction-time end changes from open to now — so
the Get result is not equal as a whole value. -/
theorem C3_counterexample :
    NewDB [recA] = .ok dbA ∧
    (Set dbA kA (some 20) ⟨none, none⟩ 5).1 = .ok () ∧
    Get dbA kA 1 3 = .ok recA ∧
    Get dbA2 kA 1 3 = .ok ⟨kA, some 10, 1, some 5, 1, none⟩ ∧
    Get dbA2 kA 1 3 ≠ Get dbA kA 1 3 := by decide

/-- C3 amended: for every store (reachable or not), every write (Set or
Delete, successful or not) executed at instant now, every key and valid
time, and every transaction time strictly before now, Get returns the same
result up to the mutated transaction-time end field of the returned record
(same error, or same key, value, transaction-time start and valid-time
interval); only the written key's entry changes, and every record of it is
either an original record, a record stamped TxTimeStart = now, or the
closure (transaction-time end set to now) of an original record whose
transaction-time interval contained now. -/
theorem C3_tt_immutability_amended {s : Store} {key : String} {value : Val}
    {isDelete : Bool} {options : WriteOptions} {now : Int} {res : Except Err Unit}
    {s2 : Store} (hup : update s key value isDelete options now = (res, s2)) :
    (∀ key2 t tt2, tt2 < now →
      Except.map stripTxEnd (Get s2 key2 t tt2) =
        Except.map stripTxEnd (Get s key2 t tt2)) ∧
    (∀ k2, k2 ≠ key → List.lookup k2 s2 = List.lookup k2 s) ∧
    (∀ vs2, List.lookup key s2 = some vs2 → ∀ v2 ∈ vs2,
      v2 ∈ (List.lookup key s).getD [] ∨ v2.TxTimeStart = now ∨
      ∃ v ∈ (List.lookup key s).getD [],
        isInRange now (ttRange v) = true ∧ v2 = { v with TxTimeEnd := some now }) := by
  refine ⟨fun key2 t tt2 htt => update_strip_get hup key2 t tt2 htt, ?_, ?_⟩
  · intro k2 hk2
    cases hcfg : handleWriteOpts options now with
    | error e =>
      have hs : s2 = s := by
        unfold update at hup
        simp only [hcfg, Prod.mk.injEq] at hup
        exact hup.2.symm
      rw [hs]
    | ok cfg =>
      cases hlk : List.lookup key s with
      | some vs =>
        obtain ⟨mid, extra, rfl, -, -⟩ := update_shape_present hcfg hlk hup
        exact lookup_setKey_ne hk2 s (mid ++ extra)
      | none =>
        rcases update_shape_absent hcfg hlk hup with rfl | rfl
        · rfl
        · exact lookup_setKey_ne hk2 s [mkNewV key value cfg now]
  · intro vs2 hlk2 v2 hv2
    cases hcfg : handleWriteOpts options now with
    | error e =>
      have hs : s2 = s := by
        unfold update at hup
        simp only [hcfg, Prod.mk.injEq] at hup
        exact hup.2.symm
      subst hs
      rw [hlk2]
      exact Or.inl (by simpa using hv2)
    | ok cfg =>
      cases hlk : List.lookup key s with
      | some vs =>
        obtain ⟨mid, extra, rfl, hF, hex⟩ := update_shape_present hcfg hlk hup
        rw [lookup_setKey_self] at hlk2
        cases hlk2
        rcases List.mem_append.mp hv2 with h2 | h2
        · obtain ⟨v, hv, hrel⟩ := forall2_mem_right hF h2
          rcases hrel with rfl | ⟨hsel, rfl⟩
          · exact Or.inl (by simpa using hv)
          · exact Or.inr (Or.inr ⟨v, by simpa using hv, writeSelects_inRange hsel, rfl⟩)
        · exact Or.inr (Or.inl (hex v2 h2))
      | none =>
        rcases update_shape_absent hcfg hlk hup with rfl | rfl
        · rw [hlk] at hlk2
          cases hlk2
        · rw [lookup_setKey_self] at hlk2
          cases hlk2
          rw [List.mem_singleton] at hv2
          subst hv2
          exact Or.inr (Or.inl rfl)

theorem C3_tt_immutability_witness :
    Except.map stripTxEnd (Get dbA2 kA 1 3) =
      Except.map stripTxEnd (Get dbA kA 1 3) :=
  (@C3_tt_immutability_amended dbA kA (some 20) false ⟨none, none⟩ 5 (.ok ()) dbA2
    (by decide)).1 kA 1 3 (by decide)

theorem find_single_of_match {r : VersionedKV} {vt tt : Int}
    (hm : matchesAt vt tt r = true) : findVersionByTime [r] vt tt = .ok r := by
  unfold findVersionByTime findLoop
  rw [hm]
  simp [findLoop]

/-- C2: Set postcondition on the current transaction-time layer — after a
successful Set at instant now from a reachable store, with effective write
window given by `handleWriteOpts`, Get at transaction time now returns a
record carrying the written value at every valid-time point inside the
window, and at every point outside the window it returns the same value (or
NotFound) as immediately before the write. -/
theorem C2_set_postcondition {s : Store} (hre : Reachable s)
    {key : String} {value : Val} {options : WriteOptions} {now : Int}
    {cfg : writeConfig} {s2 : Store}
    (hcfg : handleWriteOpts options now = .ok cfg)
    (hup : Set s key value options now = (.ok (), s2)) :
    (∀ t, isInRange t ⟨cfg.validTime, cfg.endValidTime⟩ = true →
      ∃ r, Get s2 key t now = .ok r ∧ r.Value = value) ∧
    (∀ t, isInRange t ⟨cfg.validTime, cfg.endValidTime⟩ = false →
      Except.map VersionedKV.Value (Get s2 key t now) =
        Except.map VersionedKV.Value (Get s key t now)) := by
  have hinv := reachable_inv hre
  have hinv2 : InvStore s2 := update_preserves_inv hinv hup
  cases hlk : List.lookup key s with
  | none =>
    unfold Set update at hup
    simp only [hcfg, hlk, Bool.false_eq_true, if_false] at hup
    cases hv : Validate (mkNewV key value cfg now) with
    | error e => simp [hv] at hup
    | ok u =>
      simp only [hv, assertNoOverlap, List.any_nil, Bool.false_eq_true, if_false,
        Prod.mk.injEq] at hup
      obtain ⟨-, rfl⟩ := hup
      constructor
      · intro t ht
        refine ⟨mkNewV key value cfg now, ?_, rfl⟩
        simp only [Get, lookup_setKey_self]
        exact find_single_of_match (by rw [matchesAt_mkNewV]; exact ht)
      · intro t ht
        simp only [Get, lookup_setKey_self, hlk]
        unfold findVersionByTime
        rw [findLoop_none_noMatch (fun r hr => by
          rw [List.mem_singleton] at hr
          subst hr
          rw [matchesAt_mkNewV]
          exact ht)]
  | some vs =>
    obtain ⟨hvOk, rfl⟩ := update_ok_shape_present hcfg hlk hup
    have hlkL := lookup_setKey_self s key
      ((vs.map (closeSel cfg now) ++ ohRecsAll key now cfg vs) ++ [mkNewV key value cfg now])
    have hGL : GoodList key
        ((vs.map (closeSel cfg now) ++ ohRecsAll key now cfg vs) ++ [mkNewV key value cfg now]) :=
      (hinv2 key _ (lookup_mem hlkL)).2
    have hGvs : GoodList key vs := (hinv key vs (lookup_mem hlk)).2
    constructor
    · intro t ht
      refine ⟨mkNewV key value cfg now, ?_, rfl⟩
      simp only [Get, hlkL]
      exact find_unique hGL.1 (by simp) (by rw [matchesAt_mkNewV]; exact ht)
    · intro t ht
      simp only [Get, hlkL, hlk]
      have htr := fun u => @setWindow_match_transfer key now cfg vs value t ht u
      rcases findVersionByTime_char hGvs.1 t now with ⟨hnone, hfind⟩ | ⟨r, hr, hm, hfind⟩
      · rcases findVersionByTime_char hGL.1 t now with ⟨hnone2, hfind2⟩ |
          ⟨r2, hr2, hm2, hfind2⟩
        · rw [hfind, hfind2]
        · exfalso
          obtain ⟨r3, hr3, hm3, -⟩ := (htr r2.Value).mp ⟨r2, hr2, hm2, rfl⟩
          exact absurd (hnone r3 hr3) (by simp [hm3])
      · rcases findVersionByTime_char hGL.1 t now with ⟨hnone2, hfind2⟩ |
          ⟨r2, hr2, hm2, hfind2⟩
        · exfalso
          obtain ⟨r3, hr3, hm3, -⟩ := (htr r.Value).mpr ⟨r, hr, hm, rfl⟩
          exact absurd (hnone2 r3 hr3) (by simp [hm3])
        · rw [hfind, hfind2]
          obtain ⟨r3, hr3, hm3, hval3⟩ := (htr r2.Value).mp ⟨r2, hr2, hm2, rfl⟩
          have hrr : r = r3 := match_unique hGvs.1 hr hm hr3 hm3
          simp only [Except.map]
          rw [show r2.Value = r.Value from by rw [← hval3, hrr]]

theorem C2_set_postcondition_witness :
    Except.map VersionedKV.Value (Get dbA2 kA 7 5) = .ok (some 20) ∧
    Except.map VersionedKV.Value (Get dbA2 kA 2 5) =
      Except.map VersionedKV.Value (Get dbA kA 2 5) := by
  have h := @C2_set_postcondition dbA (Reachable.seeded [recA] dbA (by decide))
    kA (some 20) ⟨none, none⟩ 5 ⟨5, none⟩ dbA2 (by decide) (by decide)
  constructor
  · obtain ⟨r, hr, hval⟩ := h.1 7 (by decide)
    rw [hr]
    simp only [Except.map]
    rw [hval]
  · exact h.2 2 (by decide)

end Bitempura
